import Mathlib

/-!
Verification of the schedule-planner date-extraction pipeline.

The program scans free text for month-name + day (+ optional year) substrings
with the regular expression

  \b(?:Jan(?:uary)?|...|Dec(?:ember)?)\.?\s+\d{1,2}(?:,\s+\d{4})?   (IGNORECASE)

via re.findall, then feeds every raw match through dateutil's tolerant parser,
silently dropping the ones that fail, and finally lifts the parsed dates into
schedule rows and a CSV table.

The embedding below models the regex engine's behaviour on this concrete
pattern (leftmost-first, non-overlapping scanning with the pattern's exact
backtracking semantics), the behaviour of dateutil.parser.parse on exactly the
strings the scanner can produce (month token, optional period, whitespace,
1-2 digit day, optional comma + whitespace + 4-digit year), and the schedule /
CSV glue.  Character classes (\d, \s, \b, IGNORECASE) are modelled over their
ASCII core, which is how the pattern's own letters, digits and punctuation
behave in Python.
-/

/-- character class of the regex token \s (ASCII core): space, tab, newline,
carriage return, vertical tab, form feed, written by code point. -/
def isWsChar (c : Char) : Bool :=
  c.toNat == 32 || c.toNat == 9 || c.toNat == 10 || c.toNat == 13 ||
    c.toNat == 11 || c.toNat == 12

/-- character class of the regex token \d (ASCII core): the code points of
the digits 0 through 9. -/
def isDigitChar (c : Char) : Bool :=
  48 ≤ c.toNat && c.toNat ≤ 57

/-- ASCII letter, by code point (a-z, A-Z). -/
def isAlphaChar (c : Char) : Bool :=
  (97 ≤ c.toNat && c.toNat ≤ 122) || (65 ≤ c.toNat && c.toNat ≤ 90)

/-- character class of the regex token \w (ASCII core), used by \b. -/
def isWordChar (c : Char) : Bool :=
  isAlphaChar c || isDigitChar c || c == '_'

/-- case-insensitive match of one input character `c` against a lowercase
pattern letter `p` (re.IGNORECASE on ASCII letters): either `c` is `p`
itself or `c` is the corresponding uppercase letter. -/
def charMatches (p c : Char) : Bool :=
  c == p || c.toNat + 32 == p.toNat

/-- case-insensitive "the input starts with this literal token". -/
def ciStartsWith : List Char → List Char → Bool
  | [], _ => true
  | _ :: _, [] => false
  | p :: ps, c :: cs => charMatches p c && ciStartsWith ps cs

/-- length of the maximal leading whitespace run (the greedy \s+ / \s*). -/
def wsCount : List Char → Nat
  | [] => 0
  | c :: cs => if isWsChar c then wsCount cs + 1 else 0

/-- whether the input starts with four digits (the \d{4} of the year group):
it has at least four characters and the first four are digits. -/
def fourDigits (u : List Char) : Bool :=
  4 ≤ u.length && (u.take 4).all isDigitChar

/-- number of characters consumed by the optional year group (?:,\s+\d{4})
when it matches at the front of the input: a comma, then at least one
whitespace character, then exactly four digits. -/
def yearLen (cs : List Char) : Option Nat :=
  match cs with
  | c :: rest =>
      if c = ',' then
        let w := wsCount rest
        if w = 0 then none
        else if fourDigits (rest.drop w) then some (1 + w + 4) else none
      else none
  | [] => none

/-- number of characters consumed by \d{1,2}(?:,\s+\d{4})? at the front of
the input.  The day is greedy: two digits when two are available, otherwise
one; the year group matches when it can and otherwise contributes nothing
(an optional group never forces the day to backtrack to one digit, because
after two digits the next character cannot be both a digit and a comma). -/
def dayYearLen : List Char → Option Nat
  | [] => none
  | c1 :: rest =>
      if isDigitChar c1 then
        match rest with
        | c2 :: rest2 =>
            if isDigitChar c2 then some (2 + (yearLen rest2).getD 0)
            else some (1 + (yearLen rest).getD 0)
        | [] => some 1
      else none

/-- number of characters consumed by \s+\d{1,2}(?:,\s+\d{4})?: the \s+ run is
taken maximally (shorter runs would leave a whitespace character where a
digit is required, so the maximal run is the only candidate). -/
def wsDayLen (cs : List Char) : Option Nat :=
  let w := wsCount cs
  if w = 0 then none
  else (dayYearLen (cs.drop w)).map (fun k => w + k)

/-- number of characters consumed by \.?\s+\d{1,2}(?:,\s+\d{4})? at the front
of the input.  When a period is present the engine first tries to consume it;
the backtracking alternative (leaving the period and matching \s+ against it)
always fails because a period is not whitespace, so it is omitted. -/
def afterMonthLen : List Char → Option Nat
  | c :: rest =>
      if c = '.' then (wsDayLen rest).map (fun k => k + 1) else wsDayLen (c :: rest)
  | [] => wsDayLen []

/-- one alternative of the month alternation, e.g. Jan(?:uary)?: the engine
greedily tries the full name first, then the bare abbreviation. -/
structure MonthAlt where
  full : List Char
  abbr : List Char
deriving DecidableEq

/-- the twelve month alternatives, in the pattern's order. -/
def monthAlts : List MonthAlt :=
  [⟨"january".toList, "jan".toList⟩, ⟨"february".toList, "feb".toList⟩,
   ⟨"march".toList, "mar".toList⟩, ⟨"april".toList, "apr".toList⟩,
   ⟨"may".toList, "may".toList⟩, ⟨"june".toList, "jun".toList⟩,
   ⟨"july".toList, "jul".toList⟩, ⟨"august".toList, "aug".toList⟩,
   ⟨"september".toList, "sep".toList⟩, ⟨"october".toList, "oct".toList⟩,
   ⟨"november".toList, "nov".toList⟩, ⟨"december".toList, "dec".toList⟩]

/-- well-formedness of one month alternative: both tokens consist of
lowercase letters, and the abbreviation is nonempty and a literal prefix of
the full name.  All twelve alternatives of the pattern satisfy this. -/
def altWf (a : MonthAlt) : Prop :=
  (∀ p ∈ a.full, 97 ≤ p.toNat ∧ p.toNat ≤ 122) ∧
  (∀ p ∈ a.abbr, 97 ≤ p.toNat ∧ p.toNat ≤ 122) ∧
  a.full.take a.abbr.length = a.abbr ∧ a.abbr ≠ []

instance (a : MonthAlt) : Decidable (altWf a) := by
  unfold altWf
  infer_instance

/-- match one literal month token at the front of the input and continue with
the rest of the pattern; returns the total number of characters consumed. -/
def tryTok (t : List Char) (cs : List Char) : Option Nat :=
  if ciStartsWith t cs then (afterMonthLen (cs.drop t.length)).map (fun k => k + t.length)
  else none

/-- match one month alternative (full name first, then abbreviation). -/
def tryMonth (a : MonthAlt) (cs : List Char) : Option Nat :=
  match tryTok a.full cs with
  | some L => some L
  | none => tryTok a.abbr cs

/-- try the month alternatives in the pattern's order. -/
def matchAtList : List MonthAlt → List Char → Option Nat
  | [], _ => none
  | a :: rest, cs =>
      match tryMonth a cs with
      | some L => some L
      | none => matchAtList rest cs

/-- length of the regex match anchored at the front of the input (without the
leading \b, which depends on the previous character and is checked by the
scanning loop). -/
def matchAt (cs : List Char) : Option Nat :=
  matchAtList monthAlts cs

/-- the \b of the pattern: since the pattern continues with a letter, the word
boundary holds exactly when the preceding character (if any) is not a word
character. -/
def boundaryOk : Option Char → Bool
  | none => true
  | some c => !isWordChar c

/-- re.findall's scanning loop: try the anchored pattern at each position,
left to right; on a match, emit it and resume right after it (non-overlapping,
leftmost-first), otherwise advance one character.  `prev` is the character
preceding the current position in the original text (for \b) and `fuel` is an
upper bound on the number of steps (each step consumes at least one
character, so the initial text length suffices). -/
def scanAux : Nat → Option Char → List Char → List (List Char)
  | 0, _, _ => []
  | _ + 1, _, [] => []
  | fuel + 1, prev, c :: t =>
      match (if boundaryOk prev then matchAt (c :: t) else none) with
      | some L =>
          ((c :: t).take L) :: scanAux fuel (((c :: t).take L).getLast?) ((c :: t).drop L)
      | none => scanAux fuel (some c) t

/-- all matches of the date pattern in a character list, in text order. -/
def scanChars (cs : List Char) : List (List Char) :=
  scanAux cs.length none cs

/-- the Date Mention Scanner: re.findall of the source's pattern over the
text, returning the raw matched substrings in order of first appearance. -/
def scan (s : String) : List String :=
  (scanChars s.toList).map (fun l => String.mk l)

/-- normalized calendar date (year, month, day), as Python's datetime.date. -/
structure CalendarDate where
  year : Int
  month : Nat
  day : Nat
deriving DecidableEq

/-- Gregorian leap-year test (calendar.isleap). -/
def isLeapYear (y : Int) : Bool :=
  y.emod 4 == 0 && (y.emod 100 != 0 || y.emod 400 == 0)

/-- number of days in a month (calendar.monthrange). -/
def daysInMonth (y : Int) (m : Nat) : Nat :=
  if m == 2 then (if isLeapYear y then 29 else 28)
  else if m == 4 || m == 6 || m == 9 || m == 11 then 30
  else 31

/-- construct a datetime.date, enforcing its validity checks: year in
1..9999 and day in 1..daysInMonth (months here always come from a month
token, hence lie in 1..12). -/
def mkDate (y : Int) (m : Nat) (d : Nat) : Option CalendarDate :=
  if 1 ≤ y ∧ y ≤ 9999 ∧ 1 ≤ d ∧ d ≤ daysInMonth y m then some ⟨y, m, d⟩ else none

/-- lexed form of a scanned mention: month index 1..12, the value of the 1-2
digit day-position number, and the value of the 4-digit year when present. -/
structure RawMention where
  month : Nat
  dayNum : Nat
  year : Option Nat
deriving DecidableEq

/-- numeric value of a digit character. -/
def digitVal (c : Char) : Nat :=
  c.toNat - 48

/-- month tokens with their month numbers, full names before abbreviations,
as recognized by dateutil's parserinfo on the scanner's output strings. -/
def monthLexTokens : List (Nat × List Char) :=
  [(1, "january".toList), (1, "jan".toList), (2, "february".toList), (2, "feb".toList),
   (3, "march".toList), (3, "mar".toList), (4, "april".toList), (4, "apr".toList),
   (5, "may".toList), (6, "june".toList), (6, "jun".toList), (7, "july".toList),
   (7, "jul".toList), (8, "august".toList), (8, "aug".toList),
   (9, "september".toList), (9, "sep".toList), (10, "october".toList), (10, "oct".toList),
   (11, "november".toList), (11, "nov".toList), (12, "december".toList), (12, "dec".toList)]

/-- find the first token of the list that starts the input, returning its
value and the remaining input. -/
def lexFrom : List (Nat × List Char) → List Char → Option (Nat × List Char)
  | [], _ => none
  | (v, t) :: rest, cs =>
      if ciStartsWith t cs then some (v, cs.drop t.length) else lexFrom rest cs

/-- lex one or two leading digits as a number (greedy, like the scanner). -/
def lexDigits2 : List Char → Option (Nat × List Char)
  | [] => none
  | c1 :: rest =>
      if isDigitChar c1 then
        match rest with
        | c2 :: rest2 =>
            if isDigitChar c2 then some (digitVal c1 * 10 + digitVal c2, rest2)
            else some (digitVal c1, rest)
        | [] => some (digitVal c1, [])
      else none

/-- lex the part of a mention after the month token (and optional period):
mandatory whitespace, the day-position number, and either the end of the
string or a comma, whitespace and exactly four digits ending the string. -/
def lexRest (m : Nat) (cs : List Char) : Option RawMention :=
  let w := wsCount cs
  if w = 0 then none else
  match lexDigits2 (cs.drop w) with
  | none => none
  | some (d, rest) =>
      match rest with
      | [] => some ⟨m, d, none⟩
      | c0 :: r2 =>
          if c0 = ',' then
            let w2 := wsCount r2
            if w2 = 0 then none else
            match r2.drop w2 with
            | a :: b :: c :: e :: [] =>
                if isDigitChar a && isDigitChar b && isDigitChar c && isDigitChar e then
                  some ⟨m, d,
                    some (digitVal a * 1000 + digitVal b * 100 + digitVal c * 10 + digitVal e)⟩
                else none
            | _ => none
          else none

/-- lex a whole mention string of the scanner's shape into its parts; strings
of any other shape are not produced by the scanner and are rejected. -/
def lexMention (cs : List Char) : Option RawMention :=
  match lexFrom monthLexTokens cs with
  | none => none
  | some (m, rest0) =>
      match rest0 with
      | c :: r => if c = '.' then lexRest m r else lexRest m (c :: r)
      | [] => lexRest m []

/-- dateutil's two-digit-year completion (parserinfo.convertyear): place the
value in the century of the current year, then shift by a century so the
result lies within [current - 50, current + 49]. -/
def centuryAdjust (curYear : Int) (n : Nat) : Int :=
  let c := (curYear.fdiv 100) * 100
  let y := (n : Int) + c
  if curYear + 50 ≤ y then y - 100
  else if y < curYear - 50 then y + 100
  else y

/-- dateutil.parser.parse on a lexed mention, with `today` the current date
supplying the parser's defaults.  Mirrors dateutil's _ymd.resolve_ymd and
_build_naive on the token streams the scanner can produce:
with a four-digit year above 100 the day number is the day; with no year the
number is the day when it is at most 31 and otherwise a two-digit year (the
day then falls back to today's day, clamped to the month's length); with a
four-digit year of value at most 100 the value is not century-marked, so the
larger-than-31 day number becomes the year and the small value the day. -/
def resolveMention (today : CalendarDate) (r : RawMention) : Option CalendarDate :=
  match r.year with
  | some y =>
      if 100 < y then mkDate (y : Int) r.month r.dayNum
      else if 31 < r.dayNum then
        mkDate (centuryAdjust today.year r.dayNum) r.month y
      else
        mkDate (if y < 100 then centuryAdjust today.year y else (y : Int)) r.month r.dayNum
  | none =>
      if r.dayNum ≤ 31 then mkDate today.year r.month r.dayNum
      else
        mkDate (centuryAdjust today.year r.dayNum) r.month
          (min today.day (daysInMonth (centuryAdjust today.year r.dayNum) r.month))

/-- the tolerant per-mention parse: dateutil.parser.parse(s).date() on a
scanned mention, none when the library raises. -/
def parseDate (today : CalendarDate) (s : String) : Option CalendarDate :=
  match lexMention s.toList with
  | none => none
  | some r => resolveMention today r

/-- the Date Normalizer loop of extract_dates_from_pdf: parse each mention in
order, append the successes, silently skip the failures. -/
def normalizeDates (today : CalendarDate) : List String → List CalendarDate
  | [] => []
  | s :: rest =>
      match parseDate today s with
      | some d => d :: normalizeDates today rest
      | none => normalizeDates today rest

/-- extract_dates_from_pdf: the adapter either yields the document text or
fails with a reason; on failure the function prints the reason and returns no
dates, on success it scans and normalizes.  The second component is the
error message printed, if any. -/
def extractDatesFromPdf (doc : Except String String) (today : CalendarDate) :
    List CalendarDate × Option String :=
  match doc with
  | Except.error e => ([], some ("Error reading PDF: " ++ e))
  | Except.ok text => (normalizeDates today (scan text), none)

/-- one row of the combined schedule table. -/
structure ScheduleEntry where
  task : String
  day : String
  startTime : String
  endTime : String
  description : String
deriving DecidableEq

/-- weekday names as produced by strftime %A. -/
def dayNames : List String :=
  ["Monday", "Tuesday", "Wednesday", "Thursday", "Friday", "Saturday", "Sunday"]

/-- month names as produced by strftime %B. -/
def monthNames : List String :=
  ["January", "February", "March", "April", "May", "June", "July", "August",
   "September", "October", "November", "December"]

/-- days in the months strictly before month `m` of year `y`. -/
def daysBeforeMonth (y : Int) : Nat → Nat
  | 0 => 0
  | 1 => 0
  | m + 1 => daysBeforeMonth y m + daysInMonth y m

/-- proleptic-Gregorian ordinal of a date (datetime.date.toordinal: day 1 is
January 1 of year 1). -/
def toOrdinalDate (d : CalendarDate) : Int :=
  365 * (d.year - 1) + (d.year - 1).fdiv 4 - (d.year - 1).fdiv 100 + (d.year - 1).fdiv 400
    + (daysBeforeMonth d.year d.month : Int) + (d.day : Int)

/-- weekday index with Monday 0 (datetime.date.weekday). -/
def weekdayIdx (d : CalendarDate) : Nat :=
  ((toOrdinalDate d + 6).emod 7).toNat

/-- strftime %A. -/
def weekdayName (d : CalendarDate) : String :=
  dayNames.getD (weekdayIdx d) ""

/-- strftime %B. -/
def monthNameOf (d : CalendarDate) : String :=
  monthNames.getD (d.month - 1) ""

/-- two-digit zero padding (strftime %d). -/
def pad2 (n : Nat) : String :=
  if n < 10 then "0" ++ toString n else toString n

/-- strftime "%B %d, %Y" as used for the Description column (%Y prints the
year unpadded on the target platform; years here are always at least 1). -/
def formatDate (d : CalendarDate) : String :=
  monthNameOf d ++ " " ++ pad2 d.day ++ ", " ++ toString d.year

/-- zip five column lists into rows, stopping at the shortest (the source
builds the syllabus DataFrame from five parallel column lists). -/
def zipRows : List String → List String → List String → List String → List String →
    List ScheduleEntry
  | t :: ts, d :: ds, s :: ss, e :: es, x :: xs => ⟨t, d, s, e, x⟩ :: zipRows ts ds ss es xs
  | _, _, _, _, _ => []

/-- the syllabus DataFrame of main, built column-wise exactly as the source
does: Task is the constant "Syllabus Event", Day the %A weekday name,
start and end the sentinel "N/A", Description the "%B %d, %Y" date string. -/
def syllabusRows (dates : List CalendarDate) : List ScheduleEntry :=
  zipRows (List.replicate dates.length "Syllabus Event") (dates.map weekdayName)
    (List.replicate dates.length "N/A") (List.replicate dates.length "N/A")
    (dates.map formatDate)

/-- the schedule's column labels, as created by get_user_tasks and the
syllabus DataFrame. -/
def scheduleColumns : List String :=
  ["Task", "Day", "Start Time", "End Time", "Description"]

/-- csv.QUOTE_MINIMAL: a field is quoted when it contains the separator, the
quote character or a line break. -/
def csvNeedsQuote (s : String) : Bool :=
  s.toList.any (fun c => c == ',' || c == '"' || c == '\n' || c == '\r')

/-- double every quote character (csv quote escaping). -/
def csvEscapeChars : List Char → List Char
  | [] => []
  | c :: cs => if c == '"' then '"' :: '"' :: csvEscapeChars cs else c :: csvEscapeChars cs

/-- render one CSV field with minimal quoting. -/
def csvField (s : String) : String :=
  if csvNeedsQuote s then "\"" ++ String.mk (csvEscapeChars s.toList) ++ "\"" else s

/-- render one CSV record. -/
def csvRecord (fields : List String) : String :=
  String.intercalate "," (fields.map csvField)

/-- the five cells of a schedule row, in column order. -/
def entryFields (e : ScheduleEntry) : List String :=
  [e.task, e.day, e.startTime, e.endTime, e.description]

/-- save_schedule_to_csv via DataFrame.to_csv(index=False): the header line
followed by one line per row. -/
def saveScheduleLines (rows : List ScheduleEntry) : List String :=
  csvRecord scheduleColumns :: rows.map (fun e => csvRecord (entryFields e))

/-- month tokens of the specification's recognition pattern: the full English
month names and their standard three-letter abbreviations, as a set (spec
section 4.1 and claim C1). -/
def specMonthTokens : List (List Char) :=
  ["january".toList, "jan".toList, "february".toList, "feb".toList,
   "march".toList, "mar".toList, "april".toList, "apr".toList, "may".toList,
   "june".toList, "jun".toList, "july".toList, "jul".toList,
   "august".toList, "aug".toList, "september".toList, "sep".toList,
   "october".toList, "oct".toList, "november".toList, "nov".toList,
   "december".toList, "dec".toList]

/-- one candidate reading of the spec's pattern at the front of the input: a
month token from the set, optionally a period, whitespace, a one- or
two-digit day number, optionally a comma, whitespace and a four-digit year
(the year's comma is followed by whitespace in the spec's own example
"Mar. 3, 2025"; claim C10 records that requirement explicitly). -/
def specTokenMatch (t : List Char) (cs : List Char) : Option Nat :=
  if ciStartsWith t cs then (afterMonthLen (cs.drop t.length)).map (fun k => k + t.length)
  else none

/-- maximum of a list of lengths, none when empty. -/
def maxOpt : List Nat → Option Nat
  | [] => none
  | a :: l =>
      match maxOpt l with
      | none => some a
      | some b => some (max a b)

/-- the spec-side match at a position: the longest substring starting here
that the recognition pattern describes, over all month-token choices. -/
def specMatchAt (cs : List Char) : Option Nat :=
  maxOpt (specMonthTokens.filterMap (fun t => specTokenMatch t cs))

/-- the spec-side scanner: leftmost-first, non-overlapping collection of
pattern matches, in order of first character.  With `useB` false the month
token may start anywhere, which is the claim's literal reading; with `useB`
true it must start at a word boundary, as the source's pattern demands. -/
def specScanAux (useB : Bool) : Nat → Option Char → List Char → List (List Char)
  | 0, _, _ => []
  | _ + 1, _, [] => []
  | fuel + 1, prev, c :: t =>
      match (if useB && !(boundaryOk prev) then none else specMatchAt (c :: t)) with
      | some L =>
          ((c :: t).take L) :: specScanAux useB fuel (((c :: t).take L).getLast?) ((c :: t).drop L)
      | none => specScanAux useB fuel (some c) t

/-- the specification's scanner under the claim's literal reading (no word
boundary before the month token). -/
def specScan (s : String) : List String :=
  (specScanAux false s.toList.length none s.toList).map (fun l => String.mk l)

/-- the specification's scanner amended with the source's word-boundary
requirement before the month token. -/
def specScanBounded (s : String) : List String :=
  (specScanAux true s.toList.length none s.toList).map (fun l => String.mk l)

/-- a string is a date mention when it is, in its entirety, one match of the
recognition pattern (used by claim C5's "valid date substring"). -/
def IsDateMention (s : String) : Prop :=
  matchAt s.toList = some s.toList.length

instance (s : String) : Decidable (IsDateMention s) := by
  unfold IsDateMention
  infer_instance

/-- the normalizer loop is exactly a filterMap of the tolerant parse over the
mentions, in order. -/
theorem normalizeDates_eq_filterMap (today : CalendarDate) (ms : List String) :
    normalizeDates today ms = ms.filterMap (parseDate today) := by
  induction ms with
  | nil => rfl
  | cons s rest ih =>
      unfold normalizeDates
      rw [List.filterMap_cons]
      cases h : parseDate today s <;> simp [h, ih]

/-- a mention with no year and a day number of at most 31 resolves to a date
in the default year with that day, subject to validity. -/
theorem resolveMention_noYear_small (today : CalendarDate) (m d : Nat) (hd : d ≤ 31) :
    resolveMention today ⟨m, d, none⟩ = mkDate today.year m d := by
  unfold resolveMention
  simp [hd]

/-- February has at most 29 days in every year. -/
theorem daysInMonth_feb_le (y : Int) : daysInMonth y 2 ≤ 29 := by
  unfold daysInMonth
  norm_num
  split <;> norm_num

/-- unfolding of the syllabus table one date at a time. -/
theorem syllabusRows_cons (x : CalendarDate) (rest : List CalendarDate) :
    syllabusRows (x :: rest) =
      ⟨"Syllabus Event", weekdayName x, "N/A", "N/A", formatDate x⟩ :: syllabusRows rest := rfl

example : scan "Classes begin Jan 15 and the midterm is Mar. 3, 2025." =
    ["Jan 15", "Mar. 3, 2025"] := by decide

example : scan "No dates here." = [] := by decide

example : scan "Due February 30" = ["February 30"] := by decide

example : scan "xJan 15" = [] := by decide

example : specScan "xJan 15" = ["Jan 15"] := by decide

example : scan "March 123" = ["March 12"] := by decide

example : scan "Mar 3,2025" = ["Mar 3"] := by decide

example : parseDate ⟨2026, 10, 12⟩ "Jan 45" = some ⟨2045, 1, 12⟩ := by decide

example : parseDate ⟨2026, 10, 12⟩ "February 30" = none := by decide

example : parseDate ⟨2026, 10, 12⟩ "Mar. 3, 2025" = some ⟨2025, 3, 3⟩ := by decide

example : weekdayName ⟨2025, 3, 3⟩ = "Monday" := by decide

example : formatDate ⟨2025, 3, 3⟩ = "March 03, 2025" := by decide

/-- characters are determined by their code points. -/
theorem char_toNat_inj (p q : Char) (h : p.toNat = q.toNat) : p = q :=
  Char.ext (UInt32.ext h)

/-- unfolding charMatches into its two code-point cases. -/
theorem charMatches_toNat (p c : Char) (h : charMatches p c = true) :
    c.toNat = p.toNat ∨ c.toNat + 32 = p.toNat := by
  unfold charMatches at h
  rcases Bool.or_eq_true_iff.mp h with h1 | h2
  · left
    rw [beq_iff_eq.mp h1]
  · right
    exact beq_iff_eq.mp h2

/-- an input character matching a lowercase pattern letter is a letter. -/
theorem charMatches_alpha (p c : Char) (hlo : 97 ≤ p.toNat) (hhi : p.toNat ≤ 122)
    (h : charMatches p c = true) : isAlphaChar c = true := by
  have hc := charMatches_toNat p c h
  simp only [isAlphaChar, Bool.or_eq_true, Bool.and_eq_true, decide_eq_true_eq]
  omega

/-- letters are not digits. -/
theorem alpha_not_digit (c : Char) (h : isAlphaChar c = true) : isDigitChar c = false := by
  simp only [isAlphaChar, Bool.or_eq_true, Bool.and_eq_true, decide_eq_true_eq] at h
  simp only [isDigitChar, Bool.and_eq_true, decide_eq_true_eq, Bool.and_eq_false_iff,
    decide_eq_false_iff_not]
  omega

/-- an input character matching a lowercase pattern letter is neither a
period nor whitespace. -/
theorem charMatches_not_dot_or_ws (p c : Char) (hlo : 97 ≤ p.toNat)
    (h : charMatches p c = true) : ¬(c = '.' ∨ isWsChar c = true) := by
  have hc := charMatches_toNat p c h
  rintro (rfl | hw)
  · have hdot : ('.' : Char).toNat = 46 := rfl
    omega
  · simp only [isWsChar, Bool.or_eq_true, beq_iff_eq] at hw
    omega

/-- two lowercase pattern letters matched by the same input character are
equal. -/
theorem charMatches_inj (p q c : Char) (hp1 : 97 ≤ p.toNat) (hp2 : p.toNat ≤ 122)
    (hq1 : 97 ≤ q.toNat) (hq2 : q.toNat ≤ 122)
    (hpc : charMatches p c = true) (hqc : charMatches q c = true) : p = q := by
  have h1 := charMatches_toNat p c hpc
  have h2 := charMatches_toNat q c hqc
  exact char_toNat_inj p q (by omega)

/-- whitespace run on a cons whose head is whitespace. -/
theorem wsCount_cons_true (c : Char) (t : List Char) (h : isWsChar c = true) :
    wsCount (c :: t) = wsCount t + 1 := by
  simp [wsCount, h]

/-- whitespace run on a cons whose head is not whitespace. -/
theorem wsCount_cons_false (c : Char) (t : List Char) (h : isWsChar c = false) :
    wsCount (c :: t) = 0 := by
  simp [wsCount, h]

/-- the whitespace run is no longer than the input. -/
theorem wsCount_le (cs : List Char) : wsCount cs ≤ cs.length := by
  induction cs with
  | nil => simp [wsCount]
  | cons c t ih =>
      cases hc : isWsChar c
      · rw [wsCount_cons_false c t hc]
        omega
      · rw [wsCount_cons_true c t hc]
        simp only [List.length_cons]
        omega

/-- appending does not change a whitespace run that stops inside the text. -/
theorem wsCount_append_lt (cs s : List Char) (h : wsCount cs < cs.length) :
    wsCount (cs ++ s) = wsCount cs := by
  induction cs with
  | nil => simp at h
  | cons c t ih =>
      cases hc : isWsChar c
      · rw [List.cons_append, wsCount_cons_false c _ hc, wsCount_cons_false c t hc]
      · rw [List.cons_append, wsCount_cons_true c _ hc, wsCount_cons_true c t hc]
        rw [wsCount_cons_true c t hc, List.length_cons] at h
        rw [ih (by omega)]

/-- when the whole text is whitespace, the run continues into the suffix. -/
theorem wsCount_append_all (cs s : List Char) (h : wsCount cs = cs.length) :
    wsCount (cs ++ s) = cs.length + wsCount s := by
  induction cs with
  | nil => simp
  | cons c t ih =>
      cases hc : isWsChar c
      · exfalso
        rw [wsCount_cons_false c t hc, List.length_cons] at h
        omega
      · rw [wsCount_cons_true c t hc, List.length_cons] at h
        rw [List.cons_append, wsCount_cons_true c _ hc, List.length_cons, ih (by omega)]
        omega

/-- when the whitespace run covers the whole text, every character is
whitespace. -/
theorem all_ws_of_wsCount_eq (cs : List Char) (h : wsCount cs = cs.length) :
    ∀ c ∈ cs, isWsChar c = true := by
  induction cs with
  | nil => simp
  | cons c t ih =>
      cases hc : isWsChar c
      · exfalso
        rw [wsCount_cons_false c t hc, List.length_cons] at h
        omega
      · rw [wsCount_cons_true c t hc, List.length_cons] at h
        intro x hx
        rcases List.mem_cons.mp hx with rfl | hx2
        · exact hc
        · exact ih (by omega) x hx2

/-- the character right after the whitespace run, when there is one, is not
whitespace. -/
theorem drop_wsCount_not_ws (cs : List Char) :
    cs.drop (wsCount cs) = [] ∨
      ∃ c t, cs.drop (wsCount cs) = c :: t ∧ isWsChar c = false := by
  induction cs with
  | nil => left; simp
  | cons c t ih =>
      cases hc : isWsChar c
      · right
        refine ⟨c, t, ?_, hc⟩
        rw [wsCount_cons_false c t hc]
        simp
      · rw [wsCount_cons_true c t hc]
        simpa using ih

/-- four-digit tests are stable under appending when the text already has
four characters. -/
theorem fourDigits_append (u s : List Char) (h : 4 ≤ u.length) :
    fourDigits (u ++ s) = fourDigits u := by
  unfold fourDigits
  rw [List.take_append_of_le_length h]
  have h2 : 4 ≤ (u ++ s).length := by
    rw [List.length_append]
    omega
  rw [decide_eq_true h, decide_eq_true h2]

/-- when a short text fails the four-digit test but its extension passes it,
the short text consists of digits only. -/
theorem fourDigits_append_short (u s : List Char) (h : u.length < 4)
    (h2 : fourDigits (u ++ s) = true) : ∀ c ∈ u, isDigitChar c = true := by
  unfold fourDigits at h2
  rcases Bool.and_eq_true_iff.mp h2 with ⟨-, hall⟩
  intro c hc
  have hmem : c ∈ (u ++ s).take 4 := by
    rw [List.take_append_eq_append_take, List.take_of_length_le (by omega)]
    exact List.mem_append_left _ hc
  exact List.all_eq_true.mp hall c hmem

/-- whitespace characters are not letters. -/
theorem ws_not_alpha (c : Char) (h : isWsChar c = true) : isAlphaChar c = false := by
  simp only [isWsChar, Bool.or_eq_true, beq_iff_eq] at h
  simp only [isAlphaChar, Bool.or_eq_false_iff, Bool.and_eq_false_iff,
    decide_eq_false_iff_not]
  omega

/-- digit characters are not letters. -/
theorem digit_not_alpha (c : Char) (h : isDigitChar c = true) : isAlphaChar c = false := by
  simp only [isDigitChar, Bool.and_eq_true, decide_eq_true_eq] at h
  simp only [isAlphaChar, Bool.or_eq_false_iff, Bool.and_eq_false_iff,
    decide_eq_false_iff_not]
  omega

/-- every character inside the whitespace run is whitespace. -/
theorem all_ws_take_wsCount (cs : List Char) :
    ∀ c ∈ cs.take (wsCount cs), isWsChar c = true := by
  induction cs with
  | nil => simp
  | cons c t ih =>
      cases hc : isWsChar c
      · rw [wsCount_cons_false c t hc]
        simp
      · rw [wsCount_cons_true c t hc]
        intro x hx
        rw [List.take_succ_cons] at hx
        rcases List.mem_cons.mp hx with rfl | hx2
        · exact hc
        · exact ih x hx2

/-- a passing four-digit test needs at least four characters. -/
theorem fourDigits_length (u : List Char) (h : fourDigits u = true) : 4 ≤ u.length := by
  unfold fourDigits at h
  exact of_decide_eq_true (Bool.and_eq_true_iff.mp h).1

/-- unfolding of the year group on a leading comma. -/
theorem yearLen_comma (u : List Char) :
    yearLen (',' :: u) = if wsCount u = 0 then none
      else if fourDigits (u.drop (wsCount u)) then some (1 + wsCount u + 4) else none := by
  simp [yearLen]

/-- the year group fails on anything but a leading comma. -/
theorem yearLen_not_comma (c : Char) (u : List Char) (hc : ¬c = ',') :
    yearLen (c :: u) = none := by
  simp [yearLen, hc]

/-- the year group consumes between one and all of the input's characters. -/
theorem yearLen_le (r : List Char) (y : Nat) (h : yearLen r = some y) :
    1 ≤ y ∧ y ≤ r.length := by
  cases r with
  | nil => simp [yearLen] at h
  | cons c rest =>
      by_cases hc : c = ','
      · subst hc
        rw [yearLen_comma] at h
        by_cases hw : wsCount rest = 0
        · rw [if_pos hw] at h
          simp at h
        · rw [if_neg hw] at h
          by_cases hf : fourDigits (rest.drop (wsCount rest)) = true
          · rw [hf, if_pos rfl, Option.some_inj] at h
            have h4 := fourDigits_length _ hf
            rw [List.length_drop] at h4
            have hle := wsCount_le rest
            simp only [List.length_cons]
            omega
          · simp only [Bool.not_eq_true] at hf
            rw [hf] at h
            simp at h
      · rw [yearLen_not_comma c rest hc] at h
        simp at h

/-- a successful year group is unaffected by appending text. -/
theorem yearLen_append (r s : List Char) (y : Nat) (h : yearLen r = some y) :
    yearLen (r ++ s) = some y := by
  cases r with
  | nil => simp [yearLen] at h
  | cons c rest =>
      rw [List.cons_append]
      by_cases hc : c = ','
      · subst hc
        rw [yearLen_comma] at h ⊢
        by_cases hw : wsCount rest = 0
        · rw [if_pos hw] at h
          simp at h
        · rw [if_neg hw] at h
          by_cases hf : fourDigits (rest.drop (wsCount rest)) = true
          · have h4 := fourDigits_length _ hf
            rw [List.length_drop] at h4
            have hle := wsCount_le rest
            have hlt : wsCount rest < rest.length := by omega
            rw [wsCount_append_lt rest s hlt,
              List.drop_append_of_le_length (Nat.le_of_lt hlt),
              fourDigits_append _ s (fourDigits_length _ hf)]
            rw [if_neg hw]
            rw [hf] at h ⊢
            rw [if_pos rfl] at h ⊢
            exact h
          · simp only [Bool.not_eq_true] at hf
            rw [hf] at h
            simp at h
      · rw [yearLen_not_comma c rest hc] at h
        simp at h

/-- when the year group fails, appending text either still fails it or the
whole input was an alpha-free partial year (comma, whitespace, up to three
digits reaching the end of the text). -/
theorem yearLen_none_append (r s : List Char) (h : yearLen r = none) :
    yearLen (r ++ s) = none ∨ ∀ c ∈ r, isAlphaChar c = false := by
  cases r with
  | nil => right; simp
  | cons c rest =>
      rw [List.cons_append]
      by_cases hc : c = ','
      · subst hc
        by_cases hw : wsCount rest = 0
        · cases rest with
          | nil =>
              right
              intro x hx
              rcases List.mem_cons.mp hx with rfl | hx2
              · decide
              · simp at hx2
          | cons x t =>
              cases hx : isWsChar x
              · left
                have hz : wsCount (x :: (t ++ s)) = 0 := wsCount_cons_false x _ hx
                rw [List.cons_append, yearLen_comma, if_pos hz]
              · exfalso
                rw [wsCount_cons_true x t hx] at hw
                omega
        · by_cases hall : wsCount rest = rest.length
          · right
            intro x hx
            rcases List.mem_cons.mp hx with rfl | hx2
            · decide
            · exact ws_not_alpha x (all_ws_of_wsCount_eq rest hall x hx2)
          · have hle := wsCount_le rest
            have hlt : wsCount rest < rest.length := by omega
            have hstop : wsCount (rest ++ s) = wsCount rest := wsCount_append_lt rest s hlt
            have hdist : (rest ++ s).drop (wsCount rest) = rest.drop (wsCount rest) ++ s :=
              List.drop_append_of_le_length (Nat.le_of_lt hlt)
            have hf : fourDigits (rest.drop (wsCount rest)) = false := by
              by_cases hf2 : fourDigits (rest.drop (wsCount rest)) = true
              · rw [yearLen_comma, if_neg hw, hf2, if_pos rfl] at h
                simp at h
              · simp only [Bool.not_eq_true] at hf2
                exact hf2
            by_cases h4 : 4 ≤ (rest.drop (wsCount rest)).length
            · left
              rw [yearLen_comma, hstop, if_neg hw, hdist, fourDigits_append _ s h4, hf]
              simp
            · cases hres : fourDigits ((rest.drop (wsCount rest)) ++ s)
              · left
                rw [yearLen_comma, hstop, if_neg hw, hdist, hres]
                simp
              · right
                have hdig := fourDigits_append_short _ s (by omega) hres
                intro x hx
                rcases List.mem_cons.mp hx with rfl | hx2
                · decide
                · rcases List.mem_append.mp
                      ((List.take_append_drop (wsCount rest) rest) ▸ hx2) with hta | hdr
                  · exact ws_not_alpha x (all_ws_take_wsCount rest x hta)
                  · exact digit_not_alpha x (hdig x hdr)
      · left
        rw [yearLen_not_comma c _ hc]

/-- a digit-headed input always yields a day match. -/
theorem dayYearLen_digit_some (c : Char) (t : List Char) (hd : isDigitChar c = true) :
    ∃ k, dayYearLen (c :: t) = some k := by
  cases t with
  | nil => exact ⟨1, by simp [dayYearLen, hd]⟩
  | cons c2 t2 =>
      by_cases hd2 : isDigitChar c2 = true
      · exact ⟨2 + (yearLen t2).getD 0, by simp [dayYearLen, hd, hd2]⟩
      · exact ⟨1 + (yearLen (c2 :: t2)).getD 0, by simp [dayYearLen, hd, hd2]⟩

/-- a day match starts with a digit. -/
theorem dayYearLen_head (u : List Char) (k : Nat) (h : dayYearLen u = some k) :
    ∃ c t, u = c :: t ∧ isDigitChar c = true := by
  cases u with
  | nil => simp [dayYearLen] at h
  | cons c t =>
      by_cases hd : isDigitChar c = true
      · exact ⟨c, t, rfl, hd⟩
      · simp [dayYearLen, hd] at h

/-- the day (and optional year) consume between one and all characters. -/
theorem dayYearLen_le (u : List Char) (k : Nat) (h : dayYearLen u = some k) :
    1 ≤ k ∧ k ≤ u.length := by
  cases u with
  | nil => simp [dayYearLen] at h
  | cons c1 rest =>
      by_cases hd : isDigitChar c1 = true
      · cases rest with
        | nil =>
            simp only [dayYearLen, hd, if_pos, if_true, Option.some_inj] at h
            simp only [List.length_cons, List.length_nil]
            omega
        | cons c2 rest2 =>
            by_cases hd2 : isDigitChar c2 = true
            · simp only [dayYearLen, hd, hd2, if_pos, if_true, Option.some_inj] at h
              simp only [List.length_cons]
              cases hy : yearLen rest2 with
              | none => rw [hy] at h; simp at h; omega
              | some y =>
                  rw [hy] at h
                  have := yearLen_le rest2 y hy
                  simp at h
                  omega
            · simp only [dayYearLen, hd, hd2, if_pos, if_neg, if_true, if_false,
                Option.some_inj] at h
              simp only [List.length_cons]
              cases hy : yearLen (c2 :: rest2) with
              | none => rw [hy] at h; simp at h; omega
              | some y =>
                  rw [hy] at h
                  have := yearLen_le (c2 :: rest2) y hy
                  simp only [List.length_cons] at this
                  simp at h
                  omega
      · simp [dayYearLen, hd] at h

/-- whitespace characters are not digits. -/
theorem ws_not_digit (c : Char) (h : isWsChar c = true) : isDigitChar c = false := by
  simp only [isWsChar, Bool.or_eq_true, beq_iff_eq] at h
  simp only [isDigitChar, Bool.and_eq_false_iff, decide_eq_false_iff_not]
  omega

/-- unfolding of the day matcher on two leading digits. -/
theorem dayYearLen_dd (c1 c2 : Char) (t : List Char) (h1 : isDigitChar c1 = true)
    (h2 : isDigitChar c2 = true) :
    dayYearLen (c1 :: c2 :: t) = some (2 + (yearLen t).getD 0) := by
  simp [dayYearLen, h1, h2]

/-- unfolding of the day matcher on one digit followed by a non-digit. -/
theorem dayYearLen_dx (c1 c2 : Char) (t : List Char) (h1 : isDigitChar c1 = true)
    (h2 : isDigitChar c2 = false) :
    dayYearLen (c1 :: c2 :: t) = some (1 + (yearLen (c2 :: t)).getD 0) := by
  simp [dayYearLen, h1, h2]

/-- a failed day match stays failed under appending, unless the input was
empty. -/
theorem dayYearLen_none_append (u s : List Char) (h : dayYearLen u = none) :
    dayYearLen (u ++ s) = none ∨ u = [] := by
  cases u with
  | nil => right; rfl
  | cons c1 rest =>
      left
      by_cases hd : isDigitChar c1 = true
      · exfalso
        rcases dayYearLen_digit_some c1 rest hd with ⟨k, hk⟩
        rw [hk] at h
        simp at h
      · rw [List.cons_append]
        simp only [Bool.not_eq_true] at hd
        simp [dayYearLen, hd]

/-- a successful day match either survives appending unchanged, or it grows
and the unconsumed tail of the original input was alpha-free (it was an
incomplete year suffix: nothing, or a comma, whitespace and at most three
digits reaching the end of the input). -/
theorem dayYearLen_some_append (u s : List Char) (k : Nat) (h : dayYearLen u = some k) :
    dayYearLen (u ++ s) = some k ∨
      ((∀ c ∈ u.drop k, isAlphaChar c = false) ∧ (dayYearLen (u ++ s)).isSome = true) := by
  cases u with
  | nil => simp [dayYearLen] at h
  | cons c1 rest =>
      by_cases hd : isDigitChar c1 = true
      · cases rest with
        | nil =>
            right
            constructor
            · have hk : k = 1 := by
                simp only [dayYearLen, hd, if_pos, if_true, Option.some_inj] at h
                omega
              rw [hk]
              intro c hc
              simp at hc
            · rcases dayYearLen_digit_some c1 s hd with ⟨k2, hk2⟩
              rw [List.cons_append, List.nil_append, hk2]
              rfl
        | cons c2 rest2 =>
            by_cases hd2 : isDigitChar c2 = true
            · rw [dayYearLen_dd c1 c2 rest2 hd hd2, Option.some_inj] at h
              rw [List.cons_append, List.cons_append, dayYearLen_dd c1 c2 (rest2 ++ s) hd hd2]
              cases hy : yearLen rest2 with
              | some y =>
                  left
                  rw [yearLen_append rest2 s y hy]
                  rw [hy] at h
                  simp only [Option.getD_some] at h ⊢
                  rw [h]
              | none =>
                  rw [hy] at h
                  simp only [Option.getD_none] at h
                  rcases yearLen_none_append rest2 s hy with hn | halpha
                  · left
                    rw [hn]
                    simp [h]
                  · right
                    refine ⟨?_, by simp⟩
                    intro c hc
                    apply halpha
                    rw [← h] at hc
                    simpa using hc
            · simp only [Bool.not_eq_true] at hd2
              rw [dayYearLen_dx c1 c2 rest2 hd hd2, Option.some_inj] at h
              rw [List.cons_append, List.cons_append, dayYearLen_dx c1 c2 (rest2 ++ s) hd hd2]
              cases hy : yearLen (c2 :: rest2) with
              | some y =>
                  left
                  have := yearLen_append (c2 :: rest2) s y hy
                  rw [List.cons_append] at this
                  rw [this]
                  rw [hy] at h
                  simp only [Option.getD_some] at h ⊢
                  rw [h]
              | none =>
                  rw [hy] at h
                  simp only [Option.getD_none] at h
                  rcases yearLen_none_append (c2 :: rest2) s hy with hn | halpha
                  · left
                    rw [List.cons_append] at hn
                    rw [hn]
                    simp [h]
                  · right
                    refine ⟨?_, by simp⟩
                    intro c hc
                    apply halpha
                    rw [← h] at hc
                    simpa using hc
      · simp [dayYearLen, hd] at h

/-- unfolding of the whitespace-and-day matcher on a positive run. -/
theorem wsDayLen_pos (cs : List Char) (h : ¬wsCount cs = 0) :
    wsDayLen cs = (dayYearLen (cs.drop (wsCount cs))).map (fun k => wsCount cs + k) := by
  simp [wsDayLen, h]

/-- the whitespace-and-day matcher fails without leading whitespace. -/
theorem wsDayLen_zero (cs : List Char) (h : wsCount cs = 0) : wsDayLen cs = none := by
  simp [wsDayLen, h]

/-- the whitespace-and-day matcher consumes between one and all characters. -/
theorem wsDayLen_le (r : List Char) (k : Nat) (h : wsDayLen r = some k) :
    1 ≤ k ∧ k ≤ r.length := by
  by_cases hw : wsCount r = 0
  · rw [wsDayLen_zero r hw] at h
    simp at h
  · rw [wsDayLen_pos r hw] at h
    cases hd : dayYearLen (r.drop (wsCount r)) with
    | none => rw [hd] at h; simp at h
    | some k0 =>
        rw [hd] at h
        simp only [Option.map_some', Option.some_inj] at h
        have hb := dayYearLen_le _ _ hd
        rw [List.length_drop] at hb
        have hc := wsCount_le r
        omega

/-- on a successful whitespace-and-day match the whitespace run stops
strictly inside the input. -/
theorem wsDayLen_some_stop (r : List Char) (k : Nat) (h : wsDayLen r = some k) :
    wsCount r < r.length ∧ ¬wsCount r = 0 := by
  by_cases hw : wsCount r = 0
  · rw [wsDayLen_zero r hw] at h
    simp at h
  · refine ⟨?_, hw⟩
    rw [wsDayLen_pos r hw] at h
    cases hd : dayYearLen (r.drop (wsCount r)) with
    | none => rw [hd] at h; simp at h
    | some k0 =>
        rcases dayYearLen_head _ _ hd with ⟨c, t, heq, -⟩
        have hne : r.drop (wsCount r) ≠ [] := by rw [heq]; exact List.cons_ne_nil c t
        have hlen := wsCount_le r
        by_contra hcon
        have hwl : r.length ≤ wsCount r := by omega
        exact hne (List.drop_eq_nil_of_le hwl)

/-- behaviour of a successful whitespace-and-day match under appending. -/
theorem wsDayLen_some_append (r s : List Char) (k : Nat) (h : wsDayLen r = some k) :
    wsDayLen (r ++ s) = some k ∨
      ((∀ c ∈ r.drop k, isAlphaChar c = false) ∧ (wsDayLen (r ++ s)).isSome = true) := by
  rcases wsDayLen_some_stop r k h with ⟨hlt, hw⟩
  rw [wsDayLen_pos r hw] at h
  cases hd : dayYearLen (r.drop (wsCount r)) with
  | none => rw [hd] at h; simp at h
  | some k0 =>
      rw [hd] at h
      simp only [Option.map_some', Option.some_inj] at h
      have hstop := wsCount_append_lt r s hlt
      have hdist : (r ++ s).drop (wsCount r) = r.drop (wsCount r) ++ s :=
        List.drop_append_of_le_length (Nat.le_of_lt hlt)
      have hw2 : ¬wsCount (r ++ s) = 0 := by rw [hstop]; exact hw
      rcases dayYearLen_some_append (r.drop (wsCount r)) s k0 hd with h1 | ⟨halpha, hsome⟩
      · left
        rw [wsDayLen_pos (r ++ s) hw2, hstop, hdist, h1]
        simp [h]
      · right
        constructor
        · intro c3 hc3
          apply halpha
          rw [← h, ← List.drop_drop] at hc3
          exact hc3
        · rw [wsDayLen_pos (r ++ s) hw2, hstop, hdist]
          simp only [Option.isSome_map']
          exact hsome

/-- behaviour of a failed whitespace-and-day match under appending: it stays
failed unless the whole input was whitespace reaching the end. -/
theorem wsDayLen_none_append (r s : List Char) (h : wsDayLen r = none) :
    wsDayLen (r ++ s) = none ∨
      ∀ c ∈ r, isAlphaChar c = false ∧ isDigitChar c = false := by
  by_cases hw : wsCount r = 0
  · cases r with
    | nil => right; simp
    | cons x t =>
        cases hx : isWsChar x
        · left
          rw [List.cons_append]
          exact wsDayLen_zero _ (wsCount_cons_false x _ hx)
        · exfalso
          rw [wsCount_cons_true x t hx] at hw
          omega
  · by_cases hall : wsCount r = r.length
    · right
      intro c hc
      have hws := all_ws_of_wsCount_eq r hall c hc
      exact ⟨ws_not_alpha c hws, ws_not_digit c hws⟩
    · have hle := wsCount_le r
      have hlt : wsCount r < r.length := by omega
      have hstop := wsCount_append_lt r s hlt
      have hdist : (r ++ s).drop (wsCount r) = r.drop (wsCount r) ++ s :=
        List.drop_append_of_le_length (Nat.le_of_lt hlt)
      have hw2 : ¬wsCount (r ++ s) = 0 := by rw [hstop]; exact hw
      rw [wsDayLen_pos r hw] at h
      cases hdd : dayYearLen (r.drop (wsCount r)) with
      | some k0 => rw [hdd] at h; simp at h
      | none =>
          left
          cases hdr : r.drop (wsCount r) with
          | nil =>
              exfalso
              have hlencon := congrArg List.length hdr
              rw [List.length_drop] at hlencon
              simp at hlencon
              omega
          | cons c t =>
              by_cases hdig : isDigitChar c = true
              · exfalso
                rcases dayYearLen_digit_some c t hdig with ⟨k2, hk2⟩
                rw [hdr, hk2] at hdd
                simp at hdd
              · rw [wsDayLen_pos (r ++ s) hw2, hstop, hdist, hdr, List.cons_append]
                simp only [Bool.not_eq_true] at hdig
                simp [dayYearLen, hdig]

/-- unfolding of the after-month matcher on a period. -/
theorem afterMonthLen_dot (rest : List Char) :
    afterMonthLen ('.' :: rest) = (wsDayLen rest).map (fun k => k + 1) := by
  simp [afterMonthLen]

/-- unfolding of the after-month matcher when there is no period. -/
theorem afterMonthLen_not_dot (c : Char) (rest : List Char) (hc : ¬c = '.') :
    afterMonthLen (c :: rest) = wsDayLen (c :: rest) := by
  simp [afterMonthLen, hc]

/-- the after-month matcher fails on empty input. -/
theorem afterMonthLen_nil : afterMonthLen [] = none := by
  simp [afterMonthLen, wsDayLen, wsCount]

/-- the after-month matcher consumes between one and all characters. -/
theorem afterMonthLen_le (r : List Char) (k : Nat) (h : afterMonthLen r = some k) :
    1 ≤ k ∧ k ≤ r.length := by
  cases r with
  | nil => rw [afterMonthLen_nil] at h; simp at h
  | cons c rest =>
      by_cases hc : c = '.'
      · subst hc
        rw [afterMonthLen_dot] at h
        cases hd : wsDayLen rest with
        | none => rw [hd] at h; simp at h
        | some k0 =>
            rw [hd] at h
            simp only [Option.map_some', Option.some_inj] at h
            have := wsDayLen_le rest k0 hd
            simp only [List.length_cons]
            omega
      · rw [afterMonthLen_not_dot c rest hc] at h
        exact wsDayLen_le _ _ h

/-- a successful after-month match starts with a period or whitespace. -/
theorem afterMonthLen_head (r : List Char) (k : Nat) (h : afterMonthLen r = some k) :
    ∃ c t, r = c :: t ∧ (c = '.' ∨ isWsChar c = true) := by
  cases r with
  | nil => rw [afterMonthLen_nil] at h; simp at h
  | cons c rest =>
      by_cases hc : c = '.'
      · exact ⟨c, rest, rfl, Or.inl hc⟩
      · refine ⟨c, rest, rfl, Or.inr ?_⟩
        rw [afterMonthLen_not_dot c rest hc] at h
        rcases wsDayLen_some_stop _ _ h with ⟨-, hw⟩
        cases hx : isWsChar c
        · exfalso
          exact hw (wsCount_cons_false c rest hx)
        · rfl

/-- behaviour of a successful after-month match under appending. -/
theorem afterMonthLen_some_append (r s : List Char) (k : Nat)
    (h : afterMonthLen r = some k) :
    afterMonthLen (r ++ s) = some k ∨
      ((∀ c ∈ r.drop k, isAlphaChar c = false) ∧ (afterMonthLen (r ++ s)).isSome = true) := by
  cases r with
  | nil => rw [afterMonthLen_nil] at h; simp at h
  | cons c rest =>
      by_cases hc : c = '.'
      · subst hc
        rw [afterMonthLen_dot] at h
        cases hd : wsDayLen rest with
        | none => rw [hd] at h; simp at h
        | some k0 =>
            rw [hd] at h
            simp only [Option.map_some', Option.some_inj] at h
            rw [List.cons_append, afterMonthLen_dot]
            rcases wsDayLen_some_append rest s k0 hd with h1 | ⟨halpha, hsome⟩
            · left
              rw [h1]
              simp [h]
            · right
              constructor
              · intro c3 hc3
                apply halpha
                rw [← h] at hc3
                simpa using hc3
              · simp only [Option.isSome_map']
                exact hsome
      · rw [afterMonthLen_not_dot c rest hc] at h
        rw [List.cons_append, afterMonthLen_not_dot c _ hc]
        have h2 := wsDayLen_some_append (c :: rest) s k h
        rw [List.cons_append] at h2
        exact h2

/-- behaviour of a failed after-month match under appending: it stays failed
unless the input was an alpha- and digit-free partial (period and
whitespace reaching the end of the input). -/
theorem afterMonthLen_none_append (r s : List Char) (h : afterMonthLen r = none) :
    afterMonthLen (r ++ s) = none ∨
      ∀ c ∈ r, isAlphaChar c = false ∧ isDigitChar c = false := by
  cases r with
  | nil => right; simp
  | cons c rest =>
      by_cases hc : c = '.'
      · subst hc
        rw [afterMonthLen_dot] at h
        cases hd : wsDayLen rest with
        | some k0 => rw [hd] at h; simp at h
        | none =>
            rcases wsDayLen_none_append rest s hd with h1 | h2
            · left
              rw [List.cons_append, afterMonthLen_dot, h1]
              rfl
            · right
              intro x hx
              rcases List.mem_cons.mp hx with rfl | hx2
              · exact ⟨by decide, by decide⟩
              · exact h2 x hx2
      · rw [afterMonthLen_not_dot c rest hc] at h
        have h2 := wsDayLen_none_append (c :: rest) s h
        rw [List.cons_append] at h2
        rcases h2 with h1 | h1
        · left
          rw [List.cons_append, afterMonthLen_not_dot c _ hc]
          exact h1
        · right
          exact h1

/-- every month alternative of the pattern is well-formed. -/
theorem monthAlts_wf : ∀ a ∈ monthAlts, altWf a := by decide

/-- a matched token is no longer than the input. -/
theorem ciStartsWith_length (t cs : List Char) (h : ciStartsWith t cs = true) :
    t.length ≤ cs.length := by
  induction t generalizing cs with
  | nil => simp
  | cons p ps ih =>
      cases cs with
      | nil => simp [ciStartsWith] at h
      | cons c cs2 =>
          simp only [ciStartsWith, Bool.and_eq_true] at h
          simp only [List.length_cons]
          have := ih cs2 h.2
          omega

/-- a matched token still matches after appending to the input. -/
theorem ciStartsWith_append (t cs s : List Char) (h : ciStartsWith t cs = true) :
    ciStartsWith t (cs ++ s) = true := by
  induction t generalizing cs with
  | nil => simp [ciStartsWith]
  | cons p ps ih =>
      cases cs with
      | nil => simp [ciStartsWith] at h
      | cons c cs2 =>
          rw [List.cons_append]
          simp only [ciStartsWith, Bool.and_eq_true] at h ⊢
          exact ⟨h.1, ih cs2 h.2⟩

/-- a failed token match stays failed after appending, unless the whole input
was a (case-insensitive) proper prefix of the token, in which case all its
characters are letters. -/
theorem ciStartsWith_false_append (t cs s : List Char) (h : ciStartsWith t cs = false)
    (hlow : ∀ p ∈ t, 97 ≤ p.toNat ∧ p.toNat ≤ 122) :
    ciStartsWith t (cs ++ s) = false ∨ ∀ c ∈ cs, isAlphaChar c = true := by
  induction t generalizing cs with
  | nil => simp [ciStartsWith] at h
  | cons p ps ih =>
      cases cs with
      | nil => right; simp
      | cons c cs2 =>
          rw [List.cons_append]
          by_cases hm : charMatches p c = true
          · simp only [ciStartsWith, hm, Bool.true_and] at h ⊢
            rcases ih cs2 h (fun q hq => hlow q (List.mem_cons_of_mem p hq)) with h1 | h2
            · left
              exact h1
            · right
              intro x hx
              rcases List.mem_cons.mp hx with rfl | hx2
              · exact charMatches_alpha p x (hlow p (List.mem_cons_self p ps)).1
                  (hlow p (List.mem_cons_self p ps)).2 hm
              · exact h2 x hx2
          · left
            simp only [Bool.not_eq_true] at hm
            simp [ciStartsWith, hm]

/-- the input characters covered by a matched token are letters. -/
theorem ciStartsWith_take_alpha (t cs : List Char) (h : ciStartsWith t cs = true)
    (hlow : ∀ p ∈ t, 97 ≤ p.toNat ∧ p.toNat ≤ 122) :
    ∀ c ∈ cs.take t.length, isAlphaChar c = true := by
  induction t generalizing cs with
  | nil => simp
  | cons p ps ih =>
      cases cs with
      | nil => simp [ciStartsWith] at h
      | cons c cs2 =>
          simp only [ciStartsWith, Bool.and_eq_true] at h
          simp only [List.length_cons, List.take_succ_cons]
          intro x hx
          rcases List.mem_cons.mp hx with rfl | hx2
          · exact charMatches_alpha p x (hlow p (List.mem_cons_self p ps)).1
              (hlow p (List.mem_cons_self p ps)).2 h.1
          · exact ih cs2 h.2 (fun q hq => hlow q (List.mem_cons_of_mem p hq)) x hx2

/-- a matched token forces its head pattern letter onto the input's head. -/
theorem ciStartsWith_head (p : Char) (ps cs : List Char)
    (h : ciStartsWith (p :: ps) cs = true) :
    ∃ c t2, cs = c :: t2 ∧ charMatches p c = true := by
  cases cs with
  | nil => simp [ciStartsWith] at h
  | cons c t2 =>
      simp only [ciStartsWith, Bool.and_eq_true] at h
      exact ⟨c, t2, rfl, h.1⟩

/-- the input character right after a matched token prefix matches the next
pattern letter. -/
theorem ciStartsWith_head_after (pre : List Char) (p : Char) (suf cs : List Char)
    (h : ciStartsWith (pre ++ p :: suf) cs = true) :
    ∃ c t2, cs.drop pre.length = c :: t2 ∧ charMatches p c = true := by
  induction pre generalizing cs with
  | nil =>
      rw [List.nil_append] at h
      rcases ciStartsWith_head p suf cs h with ⟨c, t2, rfl, hm⟩
      exact ⟨c, t2, by simp, hm⟩
  | cons q pre2 ih =>
      cases cs with
      | nil => simp [ciStartsWith] at h
      | cons c t2 =>
          rw [List.cons_append] at h
          simp only [ciStartsWith, Bool.and_eq_true] at h
          simpa using ih t2 h.2

/-- unfolding of the token matcher on a matching prefix. -/
theorem tryTok_pos (t cs : List Char) (h : ciStartsWith t cs = true) :
    tryTok t cs = (afterMonthLen (cs.drop t.length)).map (fun k => k + t.length) := by
  simp [tryTok, h]

/-- the token matcher fails on a non-matching prefix. -/
theorem tryTok_neg (t cs : List Char) (h : ciStartsWith t cs = false) :
    tryTok t cs = none := by
  simp [tryTok, h]

/-- the token matcher consumes between one and all characters. -/
theorem tryTok_le (t cs : List Char) (L : Nat) (h : tryTok t cs = some L) :
    1 ≤ L ∧ L ≤ cs.length := by
  by_cases hp : ciStartsWith t cs = true
  · rw [tryTok_pos t cs hp] at h
    cases ha : afterMonthLen (cs.drop t.length) with
    | none => rw [ha] at h; simp at h
    | some k =>
        rw [ha] at h
        simp only [Option.map_some', Option.some_inj] at h
        have h1 := afterMonthLen_le _ _ ha
        rw [List.length_drop] at h1
        have h2 := ciStartsWith_length t cs hp
        omega
  · simp only [Bool.not_eq_true] at hp
    rw [tryTok_neg t cs hp] at h
    simp at h

/-- a successful token match contains a digit. -/
theorem wsDayLen_digit (r : List Char) (k : Nat) (h : wsDayLen r = some k) :
    ∃ c ∈ r, isDigitChar c = true := by
  rcases wsDayLen_some_stop r k h with ⟨-, hw⟩
  rw [wsDayLen_pos r hw] at h
  cases hd : dayYearLen (r.drop (wsCount r)) with
  | none => rw [hd] at h; simp at h
  | some k0 =>
      rcases dayYearLen_head _ _ hd with ⟨c, t, heq, hdig⟩
      refine ⟨c, ?_, hdig⟩
      have : c ∈ r.drop (wsCount r) := by
        rw [heq]
        exact List.mem_cons_self c t
      exact List.mem_of_mem_drop this

/-- a successful after-month match contains a digit. -/
theorem afterMonthLen_digit (r : List Char) (k : Nat) (h : afterMonthLen r = some k) :
    ∃ c ∈ r, isDigitChar c = true := by
  cases r with
  | nil => rw [afterMonthLen_nil] at h; simp at h
  | cons c rest =>
      by_cases hc : c = '.'
      · subst hc
        rw [afterMonthLen_dot] at h
        cases hd : wsDayLen rest with
        | none => rw [hd] at h; simp at h
        | some k0 =>
            rcases wsDayLen_digit rest k0 hd with ⟨x, hx, hdig⟩
            exact ⟨x, List.mem_cons_of_mem _ hx, hdig⟩
      · rw [afterMonthLen_not_dot c rest hc] at h
        exact wsDayLen_digit _ _ h

/-- a successful token match contains a digit in the matched input. -/
theorem tryTok_digit (t cs : List Char) (L : Nat) (h : tryTok t cs = some L) :
    ∃ c ∈ cs, isDigitChar c = true := by
  by_cases hp : ciStartsWith t cs = true
  · rw [tryTok_pos t cs hp] at h
    cases ha : afterMonthLen (cs.drop t.length) with
    | none => rw [ha] at h; simp at h
    | some k =>
        rcases afterMonthLen_digit _ _ ha with ⟨c, hc, hdig⟩
        exact ⟨c, List.mem_of_mem_drop hc, hdig⟩
  · simp only [Bool.not_eq_true] at hp
    rw [tryTok_neg t cs hp] at h
    simp at h

/-- behaviour of a successful token match under appending. -/
theorem tryTok_some_append (t cs s : List Char) (L : Nat) (h : tryTok t cs = some L) :
    tryTok t (cs ++ s) = some L ∨
      ((∀ c ∈ cs.drop L, isAlphaChar c = false) ∧ (tryTok t (cs ++ s)).isSome = true) := by
  by_cases hp : ciStartsWith t cs = true
  · rw [tryTok_pos t cs hp] at h
    cases ha : afterMonthLen (cs.drop t.length) with
    | none => rw [ha] at h; simp at h
    | some k =>
        rw [ha] at h
        simp only [Option.map_some', Option.some_inj] at h
        have hlen := ciStartsWith_length t cs hp
        have hp2 := ciStartsWith_append t cs s hp
        have hdist : (cs ++ s).drop t.length = cs.drop t.length ++ s :=
          List.drop_append_of_le_length hlen
        rw [tryTok_pos t (cs ++ s) hp2, hdist]
        rcases afterMonthLen_some_append (cs.drop t.length) s k ha with h1 | ⟨halpha, hsome⟩
        · left
          rw [h1]
          simp [h]
        · right
          constructor
          · intro c hc
            apply halpha
            have hdd : cs.drop L = (cs.drop t.length).drop k := by
              rw [List.drop_drop, ← h]
              congr 1
              omega
            rw [hdd] at hc
            exact hc
          · simp only [Option.isSome_map']
            exact hsome
  · simp only [Bool.not_eq_true] at hp
    rw [tryTok_neg t cs hp] at h
    simp at h

/-- behaviour of a failed token match under appending: it stays failed unless
the input is digit-free (a partial token, or a token followed by a partial
rest, reaching the end of the input). -/
theorem tryTok_none_append (t cs s : List Char) (h : tryTok t cs = none)
    (hlow : ∀ p ∈ t, 97 ≤ p.toNat ∧ p.toNat ≤ 122) :
    tryTok t (cs ++ s) = none ∨ ∀ c ∈ cs, isDigitChar c = false := by
  by_cases hp : ciStartsWith t cs = true
  · rw [tryTok_pos t cs hp] at h
    cases ha : afterMonthLen (cs.drop t.length) with
    | some k => rw [ha] at h; simp at h
    | none =>
        rcases afterMonthLen_none_append (cs.drop t.length) s ha with h1 | h2
        · left
          rw [tryTok_pos t (cs ++ s) (ciStartsWith_append t cs s hp),
            List.drop_append_of_le_length (ciStartsWith_length t cs hp), h1]
          rfl
        · right
          intro c hc
          rcases List.mem_append.mp ((List.take_append_drop t.length cs) ▸ hc) with h3 | h4
          · exact alpha_not_digit c (ciStartsWith_take_alpha t cs hp hlow c h3)
          · exact (h2 c h4).2
  · simp only [Bool.not_eq_true] at hp
    rcases ciStartsWith_false_append t cs s hp hlow with h1 | h2
    · left
      exact tryTok_neg t _ h1
    · right
      intro c hc
      exact alpha_not_digit c (h2 c hc)

/-- decomposition of a successful token match. -/
theorem tryTok_some_parts (t cs : List Char) (L : Nat) (h : tryTok t cs = some L) :
    ciStartsWith t cs = true ∧
      ∃ k, afterMonthLen (cs.drop t.length) = some k ∧ L = k + t.length := by
  by_cases hp : ciStartsWith t cs = true
  · rw [tryTok_pos t cs hp] at h
    cases ha : afterMonthLen (cs.drop t.length) with
    | none => rw [ha] at h; simp at h
    | some k =>
        rw [ha] at h
        simp only [Option.map_some', Option.some_inj] at h
        exact ⟨hp, k, rfl, h.symm⟩
  · simp only [Bool.not_eq_true] at hp
    rw [tryTok_neg t cs hp] at h
    simp at h

/-- the input of a successful token match starts with a letter. -/
theorem tryTok_head_alpha (t cs : List Char) (L : Nat) (h : tryTok t cs = some L)
    (hlow : ∀ p ∈ t, 97 ≤ p.toNat ∧ p.toNat ≤ 122) (hne : t ≠ []) :
    ∃ c t2, cs = c :: t2 ∧ isAlphaChar c = true := by
  have hp := (tryTok_some_parts t cs L h).1
  cases t with
  | nil => exact absurd rfl hne
  | cons p ps =>
      rcases ciStartsWith_head p ps cs hp with ⟨c, t2, rfl, hm⟩
      exact ⟨c, t2, rfl, charMatches_alpha p c (hlow p (List.mem_cons_self p ps)).1
        (hlow p (List.mem_cons_self p ps)).2 hm⟩

/-- when the full name yields a match the alternative yields that match. -/
theorem tryMonth_eq_full (a : MonthAlt) (cs : List Char) (L : Nat)
    (h : tryTok a.full cs = some L) : tryMonth a cs = some L := by
  unfold tryMonth
  rw [h]

/-- when the full name fails the alternative falls back to the
abbreviation. -/
theorem tryMonth_eq_abbr (a : MonthAlt) (cs : List Char)
    (h : tryTok a.full cs = none) : tryMonth a cs = tryTok a.abbr cs := by
  unfold tryMonth
  rw [h]

/-- the month-alternative matcher consumes between one and all characters. -/
theorem tryMonth_le (a : MonthAlt) (cs : List Char) (L : Nat)
    (h : tryMonth a cs = some L) : 1 ≤ L ∧ L ≤ cs.length := by
  unfold tryMonth at h
  split at h
  · rename_i L2 heq
    cases h
    exact tryTok_le _ _ _ heq
  · exact tryTok_le _ _ _ h

/-- a successful month-alternative match contains a digit. -/
theorem tryMonth_digit (a : MonthAlt) (cs : List Char) (L : Nat)
    (h : tryMonth a cs = some L) : ∃ c ∈ cs, isDigitChar c = true := by
  unfold tryMonth at h
  split at h
  · rename_i L2 heq
    exact tryTok_digit _ _ _ heq
  · exact tryTok_digit _ _ _ h

/-- the input of a successful month-alternative match starts with a
letter. -/
theorem tryMonth_head_alpha (a : MonthAlt) (cs : List Char) (L : Nat) (hwf : altWf a)
    (h : tryMonth a cs = some L) :
    ∃ c t2, cs = c :: t2 ∧ isAlphaChar c = true := by
  obtain ⟨hlowF, hlowA, htake, hne⟩ := hwf
  unfold tryMonth at h
  split at h
  · rename_i L2 heq
    have hfne : a.full ≠ [] := by
      intro hcon
      rw [hcon] at htake
      simp at htake
      exact hne htake
    exact tryTok_head_alpha _ _ _ heq hlowF hfne
  · exact tryTok_head_alpha _ _ _ h hlowA hne

/-- behaviour of a successful month-alternative match under appending: the
key point is that the full-name branch cannot newly activate, because after
a successful abbreviation match the input continues with a period,
whitespace or a digit, never with the next letter of the full name. -/
theorem tryMonth_some_append (a : MonthAlt) (cs s : List Char) (L : Nat) (hwf : altWf a)
    (h : tryMonth a cs = some L) :
    tryMonth a (cs ++ s) = some L ∨
      ((∀ c ∈ cs.drop L, isAlphaChar c = false) ∧ (tryMonth a (cs ++ s)).isSome = true) := by
  obtain ⟨hlowF, hlowA, htake, hne⟩ := hwf
  unfold tryMonth at h
  split at h
  · rename_i L2 heq
    cases h
    rcases tryTok_some_append a.full cs s L heq with h1 | ⟨halpha, hsome⟩
    · left
      exact tryMonth_eq_full a _ L h1
    · cases hv : tryTok a.full (cs ++ s) with
      | none => rw [hv] at hsome; simp at hsome
      | some L3 =>
          right
          refine ⟨halpha, ?_⟩
          rw [tryMonth_eq_full a _ L3 hv]
          rfl
  · rename_i heq
    by_cases hfa : a.full = a.abbr
    · rw [hfa] at heq
      rw [heq] at h
      simp at h
    · have habne : a.abbr.length < a.full.length := by
        by_contra hcon
        push_neg at hcon
        rw [List.take_of_length_le hcon] at htake
        exact hfa htake
      obtain ⟨hpa, k2, ha2, hL⟩ := tryTok_some_parts a.abbr cs L h
      rcases afterMonthLen_head _ _ ha2 with ⟨c, t, hdropeq, hcws⟩
      by_cases hp : ciStartsWith a.full cs = true
      · exfalso
        have hsplit : ∃ p suf, a.full = a.abbr ++ p :: suf := by
          cases hdr : a.full.drop a.abbr.length with
          | nil =>
              exfalso
              have hlencon := congrArg List.length hdr
              rw [List.length_drop] at hlencon
              simp at hlencon
              omega
          | cons p suf =>
              refine ⟨p, suf, ?_⟩
              conv_lhs => rw [← List.take_append_drop a.abbr.length a.full]
              rw [htake, hdr]
        rcases hsplit with ⟨p, suf, hfeq⟩
        have hplow : 97 ≤ p.toNat ∧ p.toNat ≤ 122 := by
          apply hlowF
          rw [hfeq]
          exact List.mem_append_right _ (List.mem_cons_self p suf)
        rcases ciStartsWith_head_after a.abbr p suf cs (by rw [← hfeq]; exact hp)
          with ⟨c2, t2, hdropeq2, hm⟩
        rw [hdropeq] at hdropeq2
        have hc2 : c2 = c := by
          injection hdropeq2.symm
        rw [hc2] at hm
        exact charMatches_not_dot_or_ws p c hplow.1 hm hcws
      · simp only [Bool.not_eq_true] at hp
        rcases ciStartsWith_false_append a.full cs s hp hlowF with hstable | hallalpha
        · rw [tryMonth_eq_abbr a _ (tryTok_neg a.full _ hstable)]
          exact tryTok_some_append a.abbr cs s L h
        · exfalso
          have hcin : c ∈ cs := by
            have : c ∈ cs.drop a.abbr.length := by
              rw [hdropeq]
              exact List.mem_cons_self c t
            exact List.mem_of_mem_drop this
          have hcal := hallalpha c hcin
          rcases hcws with rfl | hw
          · simp [isAlphaChar] at hcal
          · rw [ws_not_alpha c hw] at hcal
            simp at hcal

/-- behaviour of a failed month-alternative match under appending. -/
theorem tryMonth_none_append (a : MonthAlt) (cs s : List Char) (hwf : altWf a)
    (h : tryMonth a cs = none) :
    tryMonth a (cs ++ s) = none ∨ ∀ c ∈ cs, isDigitChar c = false := by
  obtain ⟨hlowF, hlowA, htake, hne⟩ := hwf
  have hfull : tryTok a.full cs = none := by
    cases hv : tryTok a.full cs with
    | none => rfl
    | some L2 => rw [tryMonth_eq_full a cs L2 hv] at h; simp at h
  have habbr : tryTok a.abbr cs = none := by
    rw [tryMonth_eq_abbr a cs hfull] at h
    exact h
  rcases tryTok_none_append a.full cs s hfull hlowF with h1 | h2
  · rcases tryTok_none_append a.abbr cs s habbr hlowA with h3 | h4
    · left
      rw [tryMonth_eq_abbr a _ h1]
      exact h3
    · right
      exact h4
  · right
    exact h2

/-- unfolding the alternation when the first alternative matches. -/
theorem matchAtList_cons_some (a : MonthAlt) (alts : List MonthAlt) (cs : List Char)
    (L : Nat) (h : tryMonth a cs = some L) : matchAtList (a :: alts) cs = some L := by
  unfold matchAtList
  rw [h]

/-- unfolding the alternation when the first alternative fails. -/
theorem matchAtList_cons_none (a : MonthAlt) (alts : List MonthAlt) (cs : List Char)
    (h : tryMonth a cs = none) : matchAtList (a :: alts) cs = matchAtList alts cs := by
  have hu : matchAtList (a :: alts) cs =
      (match tryMonth a cs with
        | some L => some L
        | none => matchAtList alts cs) := rfl
  rw [hu, h]

/-- the alternation consumes between one and all characters. -/
theorem matchAtList_le (alts : List MonthAlt) (cs : List Char) (L : Nat)
    (h : matchAtList alts cs = some L) : 1 ≤ L ∧ L ≤ cs.length := by
  induction alts with
  | nil => simp [matchAtList] at h
  | cons a rest ih =>
      unfold matchAtList at h
      split at h
      · rename_i L2 heq
        cases h
        exact tryMonth_le a cs _ heq
      · exact ih h

/-- a successful alternation match contains a digit. -/
theorem matchAtList_digit (alts : List MonthAlt) (cs : List Char) (L : Nat)
    (h : matchAtList alts cs = some L) : ∃ c ∈ cs, isDigitChar c = true := by
  induction alts with
  | nil => simp [matchAtList] at h
  | cons a rest ih =>
      unfold matchAtList at h
      split at h
      · rename_i L2 heq
        exact tryMonth_digit a cs L2 heq
      · exact ih h

/-- the input of a successful alternation match starts with a letter. -/
theorem matchAtList_head_alpha (alts : List MonthAlt) (cs : List Char) (L : Nat)
    (hwf : ∀ a ∈ alts, altWf a) (h : matchAtList alts cs = some L) :
    ∃ c t2, cs = c :: t2 ∧ isAlphaChar c = true := by
  induction alts with
  | nil => simp [matchAtList] at h
  | cons a rest ih =>
      unfold matchAtList at h
      split at h
      · rename_i L2 heq
        exact tryMonth_head_alpha a cs L2 (hwf a (List.mem_cons_self a rest)) heq
      · exact ih (fun x hx => hwf x (List.mem_cons_of_mem a hx)) h

/-- behaviour of a successful alternation match under appending. -/
theorem matchAtList_some_append (alts : List MonthAlt) (cs s : List Char) (L : Nat)
    (hwf : ∀ a ∈ alts, altWf a) (h : matchAtList alts cs = some L) :
    matchAtList alts (cs ++ s) = some L ∨
      ((∀ c ∈ cs.drop L, isAlphaChar c = false) ∧
        (matchAtList alts (cs ++ s)).isSome = true) := by
  induction alts with
  | nil => simp [matchAtList] at h
  | cons a rest ih =>
      unfold matchAtList at h
      split at h
      · rename_i L2 heq
        cases h
        rcases tryMonth_some_append a cs s L (hwf a (List.mem_cons_self a rest)) heq
          with h1 | ⟨ha, hs⟩
        · left
          exact matchAtList_cons_some a rest _ L h1
        · cases hv : tryMonth a (cs ++ s) with
          | none => rw [hv] at hs; simp at hs
          | some L3 =>
              right
              refine ⟨ha, ?_⟩
              rw [matchAtList_cons_some a rest _ L3 hv]
              rfl
      · rename_i heq
        have hdig := matchAtList_digit rest cs L h
        rcases tryMonth_none_append a cs s (hwf a (List.mem_cons_self a rest)) heq
          with h1 | h2
        · rw [matchAtList_cons_none a rest _ h1]
          exact ih (fun x hx => hwf x (List.mem_cons_of_mem a hx)) h
        · exfalso
          rcases hdig with ⟨c, hc, hcd⟩
          rw [h2 c hc] at hcd
          simp at hcd

/-- behaviour of a failed alternation match under appending. -/
theorem matchAtList_none_append (alts : List MonthAlt) (cs s : List Char)
    (hwf : ∀ a ∈ alts, altWf a) (h : matchAtList alts cs = none) :
    matchAtList alts (cs ++ s) = none ∨ ∀ c ∈ cs, isDigitChar c = false := by
  induction alts with
  | nil => left; simp [matchAtList]
  | cons a rest ih =>
      have hfirst : tryMonth a cs = none := by
        cases hv : tryMonth a cs with
        | none => rfl
        | some L2 => rw [matchAtList_cons_some a rest cs L2 hv] at h; simp at h
      have hrest : matchAtList rest cs = none := by
        rw [matchAtList_cons_none a rest cs hfirst] at h
        exact h
      rcases tryMonth_none_append a cs s (hwf a (List.mem_cons_self a rest)) hfirst
        with h1 | h2
      · rcases ih (fun x hx => hwf x (List.mem_cons_of_mem a hx)) hrest with h3 | h4
        · left
          rw [matchAtList_cons_none a rest _ h1]
          exact h3
        · right
          exact h4
      · right
        exact h2

/-- the anchored pattern match consumes between one and all characters. -/
theorem matchAt_le (cs : List Char) (L : Nat) (h : matchAt cs = some L) :
    1 ≤ L ∧ L ≤ cs.length :=
  matchAtList_le monthAlts cs L h

/-- a successful anchored match contains a digit. -/
theorem matchAt_digit (cs : List Char) (L : Nat) (h : matchAt cs = some L) :
    ∃ c ∈ cs, isDigitChar c = true :=
  matchAtList_digit monthAlts cs L h

/-- the input of a successful anchored match starts with a letter. -/
theorem matchAt_head_alpha (cs : List Char) (L : Nat) (h : matchAt cs = some L) :
    ∃ c t2, cs = c :: t2 ∧ isAlphaChar c = true :=
  matchAtList_head_alpha monthAlts cs L monthAlts_wf h

/-- behaviour of a successful anchored match under appending. -/
theorem matchAt_some_append (cs s : List Char) (L : Nat) (h : matchAt cs = some L) :
    matchAt (cs ++ s) = some L ∨
      ((∀ c ∈ cs.drop L, isAlphaChar c = false) ∧ (matchAt (cs ++ s)).isSome = true) :=
  matchAtList_some_append monthAlts cs s L monthAlts_wf h

/-- behaviour of a failed anchored match under appending. -/
theorem matchAt_none_append (cs s : List Char) (h : matchAt cs = none) :
    matchAt (cs ++ s) = none ∨ ∀ c ∈ cs, isDigitChar c = false :=
  matchAtList_none_append monthAlts cs s monthAlts_wf h

/-- the scanner emits nothing on empty input, whatever the fuel. -/
theorem scanAux_nil_any (f : Nat) (prev : Option Char) : scanAux f prev [] = [] := by
  cases f <;> rfl

/-- unfolding one scanning step on a match. -/
theorem scanAux_cons_match (fuel : Nat) (prev : Option Char) (c : Char) (t : List Char)
    (L : Nat) (hm : (if boundaryOk prev then matchAt (c :: t) else none) = some L) :
    scanAux (fuel + 1) prev (c :: t) =
      ((c :: t).take L) :: scanAux fuel (((c :: t).take L).getLast?) ((c :: t).drop L) := by
  have hu : scanAux (fuel + 1) prev (c :: t) =
      (match (if boundaryOk prev then matchAt (c :: t) else none) with
        | some L2 =>
            ((c :: t).take L2) :: scanAux fuel (((c :: t).take L2).getLast?) ((c :: t).drop L2)
        | none => scanAux fuel (some c) t) := rfl
  rw [hu, hm]

/-- unfolding one scanning step on a failed match. -/
theorem scanAux_cons_nomatch (fuel : Nat) (prev : Option Char) (c : Char) (t : List Char)
    (hm : (if boundaryOk prev then matchAt (c :: t) else none) = none) :
    scanAux (fuel + 1) prev (c :: t) = scanAux fuel (some c) t := by
  have hu : scanAux (fuel + 1) prev (c :: t) =
      (match (if boundaryOk prev then matchAt (c :: t) else none) with
        | some L2 =>
            ((c :: t).take L2) :: scanAux fuel (((c :: t).take L2).getLast?) ((c :: t).drop L2)
        | none => scanAux fuel (some c) t) := rfl
  rw [hu, hm]

/-- a guarded match that fires implies the raw match fires. -/
theorem ifMatch_some (prev : Option Char) (c : Char) (t : List Char) (L : Nat)
    (hm : (if boundaryOk prev then matchAt (c :: t) else none) = some L) :
    matchAt (c :: t) = some L := by
  by_cases hb : boundaryOk prev = true
  · rw [if_pos hb] at hm
    exact hm
  · simp only [Bool.not_eq_true] at hb
    rw [hb] at hm
    simp at hm

/-- the scanner's output does not depend on the fuel, as long as the fuel
covers the input length (every step consumes at least one character). -/
theorem scanAux_fuel (f1 f2 : Nat) (prev : Option Char) (cs : List Char)
    (h1 : cs.length ≤ f1) (h2 : cs.length ≤ f2) :
    scanAux f1 prev cs = scanAux f2 prev cs := by
  induction f1 generalizing f2 prev cs with
  | zero =>
      have hnil : cs = [] := List.length_eq_zero.mp (by omega)
      subst hnil
      rw [scanAux_nil_any 0 prev, scanAux_nil_any f2 prev]
  | succ f ih =>
      cases cs with
      | nil => rw [scanAux_nil_any (f + 1) prev, scanAux_nil_any f2 prev]
      | cons c t =>
          simp only [List.length_cons] at h1 h2
          cases f2 with
          | zero => omega
          | succ f2b =>
              cases hm : (if boundaryOk prev then matchAt (c :: t) else none) with
              | some L =>
                  rw [scanAux_cons_match f prev c t L hm,
                    scanAux_cons_match f2b prev c t L hm]
                  have hLb := matchAt_le _ _ (ifMatch_some prev c t L hm)
                  simp only [List.length_cons] at hLb
                  congr 1
                  apply ih
                  · rw [List.length_drop]
                    simp only [List.length_cons]
                    omega
                  · rw [List.length_drop]
                    simp only [List.length_cons]
                    omega
              | none =>
                  rw [scanAux_cons_nomatch f prev c t hm,
                    scanAux_cons_nomatch f2b prev c t hm]
                  apply ih
                  · omega
                  · omega

/-- a digit-free text contains no date matches. -/
theorem scanAux_no_digit (fuel : Nat) (prev : Option Char) (cs : List Char)
    (h : ∀ c ∈ cs, isDigitChar c = false) : scanAux fuel prev cs = [] := by
  induction fuel generalizing prev cs with
  | zero => rfl
  | succ f ih =>
      cases cs with
      | nil => rfl
      | cons c t =>
          have hm : (if boundaryOk prev then matchAt (c :: t) else none) = none := by
            cases hmm : matchAt (c :: t) with
            | none =>
                by_cases hb : boundaryOk prev = true
                · rw [if_pos hb]
                · rw [if_neg hb]
            | some L =>
                exfalso
                rcases matchAt_digit _ _ hmm with ⟨x, hx, hdx⟩
                rw [h x hx] at hdx
                simp at hdx
          rw [scanAux_cons_nomatch f prev c t hm]
          exact ih (some c) t (fun x hx => h x (List.mem_cons_of_mem c hx))

/-- a letter-free text contains no date matches. -/
theorem scanAux_no_alpha (fuel : Nat) (prev : Option Char) (cs : List Char)
    (h : ∀ c ∈ cs, isAlphaChar c = false) : scanAux fuel prev cs = [] := by
  induction fuel generalizing prev cs with
  | zero => rfl
  | succ f ih =>
      cases cs with
      | nil => rfl
      | cons c t =>
          have hm : (if boundaryOk prev then matchAt (c :: t) else none) = none := by
            cases hmm : matchAt (c :: t) with
            | none =>
                by_cases hb : boundaryOk prev = true
                · rw [if_pos hb]
                · rw [if_neg hb]
            | some L =>
                exfalso
                rcases matchAt_head_alpha _ _ hmm with ⟨x, t2, heq, hax⟩
                have hxin : x ∈ c :: t := by
                  rw [heq]
                  exact List.mem_cons_self x t2
                rw [h x hxin] at hax
                simp at hax
          rw [scanAux_cons_nomatch f prev c t hm]
          exact ih (some c) t (fun x hx => h x (List.mem_cons_of_mem c hx))

/-- appending text never removes a match: the scan of the extended text has
at least as many matches as the scan of the original text.  The proof walks
the scanning loop; a position that matched keeps matching (possibly longer,
in which case the formerly unconsumed tail was alpha-free and carried no
further matches), and a position that newly matches only arises where the
original text's remainder was digit-free and so match-free. -/
theorem scanAux_count_append (n : Nat) :
    ∀ cs : List Char, cs.length ≤ n → ∀ (prev : Option Char) (s : List Char),
      (scanAux cs.length prev cs).length ≤ (scanAux (cs ++ s).length prev (cs ++ s)).length := by
  induction n with
  | zero =>
      intro cs hcs prev s
      have hnil : cs = [] := List.length_eq_zero.mp (by omega)
      subst hnil
      exact Nat.zero_le _
  | succ n ih =>
      intro cs hcs prev s
      cases cs with
      | nil => exact Nat.zero_le _
      | cons c t =>
          simp only [List.length_cons] at hcs
          simp only [List.cons_append, List.length_cons]
          cases hm : (if boundaryOk prev then matchAt (c :: t) else none) with
          | none =>
              rw [scanAux_cons_nomatch t.length prev c t hm]
              cases hm2 : (if boundaryOk prev then matchAt (c :: (t ++ s)) else none) with
              | none =>
                  rw [scanAux_cons_nomatch (t ++ s).length prev c (t ++ s) hm2]
                  exact ih t (by omega) (some c) s
              | some L2 =>
                  have hzero : scanAux t.length (some c) t = [] := by
                    apply scanAux_no_digit
                    have hb : boundaryOk prev = true := by
                      by_contra hbc
                      simp only [Bool.not_eq_true] at hbc
                      rw [hbc] at hm2
                      simp at hm2
                    rw [if_pos hb] at hm hm2
                    rcases matchAt_none_append (c :: t) s hm with h1 | h2
                    · rw [List.cons_append] at h1
                      rw [h1] at hm2
                      simp at hm2
                    · exact fun x hx => h2 x (List.mem_cons_of_mem c hx)
                  rw [hzero]
                  exact Nat.zero_le _
          | some L =>
              have hb : boundaryOk prev = true := by
                by_contra hbc
                simp only [Bool.not_eq_true] at hbc
                rw [hbc] at hm
                simp at hm
              have hmm : matchAt (c :: t) = some L := by
                rw [if_pos hb] at hm
                exact hm
              have hLb := matchAt_le _ _ hmm
              have hL1 : 1 ≤ L := hLb.1
              have hL2 : L ≤ t.length + 1 := by
                have h2b := hLb.2
                simpa using h2b
              rcases matchAt_some_append (c :: t) s L hmm with h1 | ⟨halpha, hsome⟩
              · have hmif2 :
                    (if boundaryOk prev then matchAt (c :: (t ++ s)) else none) = some L := by
                  rw [if_pos hb, ← List.cons_append]
                  exact h1
                rw [scanAux_cons_match t.length prev c t L hm,
                  scanAux_cons_match (t ++ s).length prev c (t ++ s) L hmif2]
                simp only [List.length_cons]
                have hca : c :: (t ++ s) = (c :: t) ++ s := by rw [List.cons_append]
                have htake2 : (c :: (t ++ s)).take L = (c :: t).take L := by
                  rw [hca, List.take_append_of_le_length hLb.2]
                have hdrop2 : (c :: (t ++ s)).drop L = (c :: t).drop L ++ s := by
                  rw [hca, List.drop_append_of_le_length hLb.2]
                rw [htake2, hdrop2]
                have hlen1 : ((c :: t).drop L).length ≤ t.length := by
                  rw [List.length_drop]
                  simp only [List.length_cons]
                  omega
                rw [scanAux_fuel t.length ((c :: t).drop L).length
                  (((c :: t).take L).getLast?) ((c :: t).drop L) hlen1 (le_refl _)]
                have hlen2 : ((c :: t).drop L ++ s).length ≤ (t ++ s).length := by
                  simp only [List.length_append, List.length_drop, List.length_cons]
                  omega
                rw [scanAux_fuel (t ++ s).length ((c :: t).drop L ++ s).length
                  (((c :: t).take L).getLast?) ((c :: t).drop L ++ s) hlen2 (le_refl _)]
                have hrec := ih ((c :: t).drop L)
                  (by
                    rw [List.length_drop]
                    simp only [List.length_cons]
                    omega)
                  (((c :: t).take L).getLast?) s
                omega
              · have hzero :
                    scanAux t.length (((c :: t).take L).getLast?) ((c :: t).drop L) = [] :=
                  scanAux_no_alpha _ _ _ halpha
                rw [scanAux_cons_match t.length prev c t L hm, hzero]
                cases hv : matchAt ((c :: t) ++ s) with
                | none => rw [hv] at hsome; simp at hsome
                | some L2 =>
                    have hmif2 :
                        (if boundaryOk prev then matchAt (c :: (t ++ s)) else none) =
                          some L2 := by
                      rw [if_pos hb, ← List.cons_append]
                      exact hv
                    rw [scanAux_cons_match (t ++ s).length prev c (t ++ s) L2 hmif2]
                    simp

/-- C5: the number of scan results is monotone under extending the text by
appending a valid date substring (in fact appending any text never decreases
the match count: existing matches persist, at worst absorbing an appended
year suffix whose place held no other match). -/
theorem c5_scan_append_monotone (t s : String) (hs : IsDateMention s) :
    (scan t).length ≤ (scan (t ++ s)).length := by
  unfold scan scanChars
  simp only [List.length_map]
  have hd : (t ++ s).toList = t.toList ++ s.toList := by
    show (t ++ s).data = t.data ++ s.data
    exact String.data_append t s
  rw [hd]
  exact scanAux_count_append t.toList.length t.toList (le_refl _) none s.toList

/-- C5 witness: appending the valid date substring "Jan 15" to a dateless
text does not decrease the match count. -/
theorem c5_witness :
    IsDateMention "Jan 15" ∧
      (scan "No dates here.").length ≤ (scan ("No dates here." ++ "Jan 15")).length :=
  ⟨by decide, c5_scan_append_monotone "No dates here." "Jan 15" (by decide)⟩

/-- every spec month token consists of lowercase letters. -/
theorem specTokens_lower :
    ∀ t ∈ specMonthTokens, ∀ p ∈ t, 97 ≤ p.toNat ∧ p.toNat ≤ 122 := by decide

/-- the tokens of every pattern alternative belong to the spec token set. -/
theorem alts_tokens :
    ∀ a ∈ monthAlts, a.full ∈ specMonthTokens ∧ a.abbr ∈ specMonthTokens := by decide

/-- every spec token is the full name or the abbreviation of some pattern
alternative. -/
theorem tokens_alts :
    ∀ tok ∈ specMonthTokens, ∃ a ∈ monthAlts, tok = a.full ∨ tok = a.abbr := by decide

/-- among the spec tokens, one being a literal prefix of another happens only
within a single month: the abbreviation before its own full name. -/
theorem specTokens_prefix_pairs :
    ∀ t1 ∈ specMonthTokens, ∀ t2 ∈ specMonthTokens, t2.take t1.length = t1 →
      (t1 = t2 ∨ ∃ a ∈ monthAlts, t1 = a.abbr ∧ t2 = a.full) := by decide

/-- the spec-side candidate matcher coincides with the token matcher. -/
theorem specTokenMatch_eq_tryTok (t cs : List Char) :
    specTokenMatch t cs = tryTok t cs := rfl

/-- two lowercase tokens both matching at the same position are comparable:
the shorter is a literal prefix of the longer. -/
theorem ciStartsWith_comparable (t1 : List Char) :
    ∀ t2 cs : List Char, ciStartsWith t1 cs = true → ciStartsWith t2 cs = true →
      t1.length ≤ t2.length →
      (∀ p ∈ t1, 97 ≤ p.toNat ∧ p.toNat ≤ 122) →
      (∀ p ∈ t2, 97 ≤ p.toNat ∧ p.toNat ≤ 122) →
      t2.take t1.length = t1 := by
  induction t1 with
  | nil =>
      intro t2 cs h1 h2 hlen hlow1 hlow2
      simp
  | cons p ps ih =>
      intro t2 cs h1 h2 hlen hlow1 hlow2
      cases t2 with
      | nil => simp at hlen
      | cons q qs =>
          cases cs with
          | nil => simp [ciStartsWith] at h1
          | cons c cs2 =>
              simp only [ciStartsWith, Bool.and_eq_true] at h1 h2
              have hpq : q = p := by
                apply charMatches_inj q p c
                  (hlow2 q (List.mem_cons_self q qs)).1 (hlow2 q (List.mem_cons_self q qs)).2
                  (hlow1 p (List.mem_cons_self p ps)).1 (hlow1 p (List.mem_cons_self p ps)).2
                  h2.1 h1.1
              simp only [List.length_cons, List.take_succ_cons, hpq, List.cons.injEq, true_and]
              exact ih qs cs2 h1.2 h2.2 (by simpa using hlen)
                (fun x hx => hlow1 x (List.mem_cons_of_mem p hx))
                (fun x hx => hlow2 x (List.mem_cons_of_mem q hx))

/-- the abbreviation and the full name of a (proper) alternative can never
both complete a match at the same position: after a completed abbreviation
match the input continues with a period, whitespace or a digit, never with
the next letter of the full name. -/
theorem abbr_full_not_both (a : MonthAlt) (cs : List Char) (L1 L2 : Nat) (hwf : altWf a)
    (hne2 : ¬a.full = a.abbr)
    (h1 : tryTok a.abbr cs = some L1) (h2 : tryTok a.full cs = some L2) : False := by
  obtain ⟨hlowF, hlowA, htake, hne⟩ := hwf
  have habne : a.abbr.length < a.full.length := by
    by_contra hcon
    push_neg at hcon
    rw [List.take_of_length_le hcon] at htake
    exact hne2 htake
  obtain ⟨hpa, k1, ha1, hL1⟩ := tryTok_some_parts a.abbr cs L1 h1
  obtain ⟨hpf, -, -⟩ := tryTok_some_parts a.full cs L2 h2
  rcases afterMonthLen_head _ _ ha1 with ⟨c, t, hdropeq, hcws⟩
  have hsplit : ∃ p suf, a.full = a.abbr ++ p :: suf := by
    cases hdr : a.full.drop a.abbr.length with
    | nil =>
        exfalso
        have hlencon := congrArg List.length hdr
        rw [List.length_drop] at hlencon
        simp at hlencon
        omega
    | cons p suf =>
        refine ⟨p, suf, ?_⟩
        conv_lhs => rw [← List.take_append_drop a.abbr.length a.full]
        rw [htake, hdr]
  rcases hsplit with ⟨p, suf, hfeq⟩
  have hplow : 97 ≤ p.toNat ∧ p.toNat ≤ 122 := by
    apply hlowF
    rw [hfeq]
    exact List.mem_append_right _ (List.mem_cons_self p suf)
  rcases ciStartsWith_head_after a.abbr p suf cs (by rw [← hfeq]; exact hpf)
    with ⟨c2, t2, hdropeq2, hm⟩
  rw [hdropeq] at hdropeq2
  have hc2 : c2 = c := by injection hdropeq2.symm
  rw [hc2] at hm
  exact charMatches_not_dot_or_ws p c hplow.1 hm hcws

/-- at most one spec token completes a match at a given position. -/
theorem specTokens_unique (t1 t2 cs : List Char) (L1 L2 : Nat)
    (m1 : t1 ∈ specMonthTokens) (m2 : t2 ∈ specMonthTokens)
    (h1 : tryTok t1 cs = some L1) (h2 : tryTok t2 cs = some L2) : t1 = t2 := by
  have hp1 := (tryTok_some_parts t1 cs L1 h1).1
  have hp2 := (tryTok_some_parts t2 cs L2 h2).1
  have hlow1 := specTokens_lower t1 m1
  have hlow2 := specTokens_lower t2 m2
  by_cases hlen : t1.length ≤ t2.length
  · have hcomp := ciStartsWith_comparable t1 t2 cs hp1 hp2 hlen hlow1 hlow2
    rcases specTokens_prefix_pairs t1 m1 t2 m2 hcomp with heq | ⟨a, ha, he1, he2⟩
    · exact heq
    · by_cases hfa : a.full = a.abbr
      · rw [he1, he2, hfa]
      · exfalso
        have hwf := monthAlts_wf a ha
        apply abbr_full_not_both a cs L1 L2 hwf hfa
        · rw [← he1]
          exact h1
        · rw [← he2]
          exact h2
  · push_neg at hlen
    have hcomp := ciStartsWith_comparable t2 t1 cs hp2 hp1 (Nat.le_of_lt hlen) hlow2 hlow1
    rcases specTokens_prefix_pairs t2 m2 t1 m1 hcomp with heq | ⟨a, ha, he1, he2⟩
    · exact heq.symm
    · by_cases hfa : a.full = a.abbr
      · rw [he1, he2, hfa]
      · exfalso
        have hwf := monthAlts_wf a ha
        apply abbr_full_not_both a cs L2 L1 hwf hfa
        · rw [← he1]
          exact h2
        · rw [← he2]
          exact h1

/-- a successful alternation match comes from one of its tokens. -/
theorem matchAtList_to_token (alts : List MonthAlt) (cs : List Char) (L : Nat)
    (h : matchAtList alts cs = some L) :
    ∃ a ∈ alts, tryTok a.full cs = some L ∨ tryTok a.abbr cs = some L := by
  induction alts with
  | nil => simp [matchAtList] at h
  | cons a rest ih =>
      unfold matchAtList at h
      split at h
      · rename_i L2 heq
        cases h
        unfold tryMonth at heq
        split at heq
        · rename_i L3 heq2
          cases heq
          exact ⟨a, List.mem_cons_self a rest, Or.inl heq2⟩
        · exact ⟨a, List.mem_cons_self a rest, Or.inr heq⟩
      · rcases ih h with ⟨a2, ha2, hor⟩
        exact ⟨a2, List.mem_cons_of_mem a ha2, hor⟩

/-- a failed alternation match means every token of every alternative
fails. -/
theorem matchAtList_all_none (alts : List MonthAlt) (cs : List Char)
    (h : matchAtList alts cs = none) :
    ∀ a ∈ alts, tryTok a.full cs = none ∧ tryTok a.abbr cs = none := by
  induction alts with
  | nil => simp
  | cons a rest ih =>
      have hfirst : tryMonth a cs = none := by
        cases hv : tryMonth a cs with
        | none => rfl
        | some L2 => rw [matchAtList_cons_some a rest cs L2 hv] at h; simp at h
      have hrest : matchAtList rest cs = none := by
        rw [matchAtList_cons_none a rest cs hfirst] at h
        exact h
      have hfull : tryTok a.full cs = none := by
        cases hv : tryTok a.full cs with
        | none => rfl
        | some L2 => rw [tryMonth_eq_full a cs L2 hv] at hfirst; simp at hfirst
      have habbr : tryTok a.abbr cs = none := by
        rw [tryMonth_eq_abbr a cs hfull] at hfirst
        exact hfirst
      intro x hx
      rcases List.mem_cons.mp hx with rfl | hx2
      · exact ⟨hfull, habbr⟩
      · exact ih hrest x hx2

/-- the maximum of a list contains one of its members. -/
theorem maxOpt_mem (l : List Nat) (b : Nat) (h : maxOpt l = some b) : b ∈ l := by
  induction l generalizing b with
  | nil => simp [maxOpt] at h
  | cons a rest ih =>
      unfold maxOpt at h
      cases hm : maxOpt rest with
      | none =>
          rw [hm] at h
          simp only [Option.some_inj] at h
          rw [← h]
          exact List.mem_cons_self a rest
      | some b2 =>
          rw [hm] at h
          simp only [Option.some_inj] at h
          by_cases hab : a ≤ b2
          · have : b = b2 := by rw [← h]; omega
            exact List.mem_cons_of_mem a (this ▸ ih b2 hm)
          · have : b = a := by rw [← h]; omega
            rw [this]
            exact List.mem_cons_self a rest

/-- when exactly one value can appear, the maximum over the filtered list is
that value. -/
theorem maxOpt_filterMap_unique (l : List (List Char)) (f : List Char → Option Nat)
    (t : List Char) (L : Nat) (ht : t ∈ l) (hf : f t = some L)
    (huniq : ∀ u ∈ l, ∀ L2, f u = some L2 → L2 = L) :
    maxOpt (l.filterMap f) = some L := by
  induction l with
  | nil => simp at ht
  | cons a rest ih =>
      rw [List.filterMap_cons]
      cases hfa : f a with
      | none =>
          rcases List.mem_cons.mp ht with rfl | ht2
          · rw [hf] at hfa
            simp at hfa
          · exact ih ht2 (fun u hu => huniq u (List.mem_cons_of_mem a hu))
      | some La =>
          have hLa : La = L := huniq a (List.mem_cons_self a rest) La hfa
          subst hLa
          unfold maxOpt
          cases hm : maxOpt (rest.filterMap f) with
          | none => rfl
          | some b =>
              have hb := maxOpt_mem _ _ hm
              rcases List.mem_filterMap.mp hb with ⟨u, hu, hfu⟩
              have : b = La := huniq u (List.mem_cons_of_mem a hu) b hfu
              subst this
              simp

/-- when every candidate fails the maximum over the filtered list is none. -/
theorem maxOpt_filterMap_none (l : List (List Char)) (f : List Char → Option Nat)
    (h : ∀ u ∈ l, f u = none) : maxOpt (l.filterMap f) = none := by
  have : l.filterMap f = [] := by
    induction l with
    | nil => rfl
    | cons a rest ih =>
        rw [List.filterMap_cons, h a (List.mem_cons_self a rest)]
        exact ih (fun u hu => h u (List.mem_cons_of_mem a hu))
  rw [this]
  rfl

/-- the specification's longest-token match agrees with the pattern's
ordered-alternation match at every position: at most one month token can
complete a match at a position, so longest-choice and first-choice pick the
same one. -/
theorem specMatchAt_eq (cs : List Char) : specMatchAt cs = matchAt cs := by
  cases hm : matchAt cs with
  | some L =>
      rcases matchAtList_to_token monthAlts cs L hm with ⟨a, ha, hor⟩
      have htoks := alts_tokens a ha
      unfold specMatchAt
      rcases hor with hfull | habbr
      · apply maxOpt_filterMap_unique specMonthTokens _ a.full L htoks.1
          (by rw [specTokenMatch_eq_tryTok]; exact hfull)
        intro u hu L2 hL2
        rw [specTokenMatch_eq_tryTok] at hL2
        have heq := specTokens_unique u a.full cs L2 L hu htoks.1 hL2 hfull
        rw [heq, hfull] at hL2
        exact (Option.some_inj.mp hL2).symm
      · apply maxOpt_filterMap_unique specMonthTokens _ a.abbr L htoks.2
          (by rw [specTokenMatch_eq_tryTok]; exact habbr)
        intro u hu L2 hL2
        rw [specTokenMatch_eq_tryTok] at hL2
        have heq := specTokens_unique u a.abbr cs L2 L hu htoks.2 hL2 habbr
        rw [heq, habbr] at hL2
        exact (Option.some_inj.mp hL2).symm
  | none =>
      unfold specMatchAt
      apply maxOpt_filterMap_none
      intro u hu
      rw [specTokenMatch_eq_tryTok]
      rcases tokens_alts u hu with ⟨a, ha, hor⟩
      have hnones := matchAtList_all_none monthAlts cs hm a ha
      rcases hor with rfl | rfl
      · exact hnones.1
      · exact hnones.2

/-- unfolding one bounded spec-scanning step on a match. -/
theorem specScanAux_cons_match (fuel : Nat) (prev : Option Char) (c : Char) (t : List Char)
    (L : Nat)
    (hm : (if true && !(boundaryOk prev) then none else specMatchAt (c :: t)) = some L) :
    specScanAux true (fuel + 1) prev (c :: t) =
      ((c :: t).take L) ::
        specScanAux true fuel (((c :: t).take L).getLast?) ((c :: t).drop L) := by
  have hu : specScanAux true (fuel + 1) prev (c :: t) =
      (match (if true && !(boundaryOk prev) then none else specMatchAt (c :: t)) with
        | some L2 =>
            ((c :: t).take L2) ::
              specScanAux true fuel (((c :: t).take L2).getLast?) ((c :: t).drop L2)
        | none => specScanAux true fuel (some c) t) := rfl
  rw [hu, hm]

/-- unfolding one bounded spec-scanning step on a failed match. -/
theorem specScanAux_cons_nomatch (fuel : Nat) (prev : Option Char) (c : Char)
    (t : List Char)
    (hm : (if true && !(boundaryOk prev) then none else specMatchAt (c :: t)) = none) :
    specScanAux true (fuel + 1) prev (c :: t) = specScanAux true fuel (some c) t := by
  have hu : specScanAux true (fuel + 1) prev (c :: t) =
      (match (if true && !(boundaryOk prev) then none else specMatchAt (c :: t)) with
        | some L2 =>
            ((c :: t).take L2) ::
              specScanAux true fuel (((c :: t).take L2).getLast?) ((c :: t).drop L2)
        | none => specScanAux true fuel (some c) t) := rfl
  rw [hu, hm]

/-- the guards of the two scanners agree at every position. -/
theorem spec_guard_eq (prev : Option Char) (c : Char) (t : List Char) :
    (if true && !(boundaryOk prev) then none else specMatchAt (c :: t)) =
      (if boundaryOk prev then matchAt (c :: t) else none) := by
  cases hb : boundaryOk prev
  · simp
  · simp [specMatchAt_eq]

/-- the bounded spec scanner coincides with the source's scanner. -/
theorem specScanAux_true_eq (fuel : Nat) (prev : Option Char) (cs : List Char) :
    specScanAux true fuel prev cs = scanAux fuel prev cs := by
  induction fuel generalizing prev cs with
  | zero => rfl
  | succ f ih =>
      cases cs with
      | nil => rfl
      | cons c t =>
          cases hm : (if boundaryOk prev then matchAt (c :: t) else none) with
          | some L =>
              rw [scanAux_cons_match f prev c t L hm,
                specScanAux_cons_match f prev c t L (by rw [spec_guard_eq]; exact hm), ih]
          | none =>
              rw [scanAux_cons_nomatch f prev c t hm,
                specScanAux_cons_nomatch f prev c t (by rw [spec_guard_eq]; exact hm), ih]

/-- C7: when the Text Source Adapter fails, the extraction pipeline returns
the empty date sequence together with a reported failure message carrying the
reason, and never raises; when the adapter succeeds no such adapter-level
message is produced, so an adapter failure is distinguishable from a scan
that simply found no matches. -/
theorem c7_adapter_failure_empty_and_reported :
    (∀ e today, extractDatesFromPdf (Except.error e) today =
      ([], some ("Error reading PDF: " ++ e))) ∧
    (∀ text today, (extractDatesFromPdf (Except.ok text) today).2 = none) :=
  ⟨fun _ _ => rfl, fun _ _ => rfl⟩

/-- C9: the recognition pattern imposes no word boundary after the day
number, so in "March 123" the scanner reports "March 12", the month with
only the first two digits of the longer number. -/
theorem c9_three_digit_day_truncated :
    scan "March 123" = ["March 12"] := by decide

/-- C10: the pattern requires at least one whitespace character between the
comma and the year, so in "Mar 3,2025" the scanner reports only "Mar 3",
without the year. -/
theorem c10_comma_without_space_excludes_year :
    scan "Mar 3,2025" = ["Mar 3"] := by decide

/-- C3: on the scenario-1 text the scanner finds exactly "Jan 15" and
"Mar. 3, 2025" in that order, and the normalizer yields the date
(current year, January 15) followed by (2025, March 3), for any current
date whose year datetime.date accepts. -/
theorem c3_scenario1 (today : CalendarDate) (hy1 : 1 ≤ today.year)
    (hy2 : today.year ≤ 9999) :
    scan "Classes begin Jan 15 and the midterm is Mar. 3, 2025." =
      ["Jan 15", "Mar. 3, 2025"] ∧
    normalizeDates today (scan "Classes begin Jan 15 and the midterm is Mar. 3, 2025.") =
      [⟨today.year, 1, 15⟩, ⟨2025, 3, 3⟩] := by
  have hscan : scan "Classes begin Jan 15 and the midterm is Mar. 3, 2025." =
      ["Jan 15", "Mar. 3, 2025"] := by decide
  refine ⟨hscan, ?_⟩
  rw [hscan]
  have h1 : parseDate today "Jan 15" = some ⟨today.year, 1, 15⟩ := by
    have hcond : 1 ≤ today.year ∧ today.year ≤ 9999 ∧ 1 ≤ 15 ∧
        15 ≤ daysInMonth today.year 1 := by
      refine ⟨hy1, hy2, by norm_num, ?_⟩
      show (15 : Nat) ≤ 31
      norm_num
    show mkDate today.year 1 15 = some ⟨today.year, 1, 15⟩
    unfold mkDate
    rw [if_pos hcond]
  have h2 : parseDate today "Mar. 3, 2025" = some ⟨2025, 3, 3⟩ := rfl
  simp [normalizeDates, h1, h2]

/-- C3 witness: the scenario-1 theorem instantiated at the concrete current
date 2026-10-12. -/
theorem c3_scenario1_witness :
    scan "Classes begin Jan 15 and the midterm is Mar. 3, 2025." =
      ["Jan 15", "Mar. 3, 2025"] ∧
    normalizeDates ⟨2026, 10, 12⟩
        (scan "Classes begin Jan 15 and the midterm is Mar. 3, 2025.") =
      [⟨2026, 1, 15⟩, ⟨2025, 3, 3⟩] :=
  c3_scenario1 ⟨2026, 10, 12⟩ (by decide) (by decide)

/-- C2 counterexample: the mention "Jan 45" has a month+day combination that
is invalid in every year (January has 31 days), yet the normalizer does not
drop it: dateutil reinterprets 45 as the two-digit year 2045 and substitutes
the current day of month, so with current date 2026-10-12 the scanned
sequence of "Jan 45" normalizes to the non-empty [2045-01-12]. -/
theorem c2_counterexample :
    (31 : Nat) < 45 ∧ daysInMonth 2045 1 = 31 ∧ scan "Jan 45" = ["Jan 45"] ∧
    normalizeDates ⟨2026, 10, 12⟩ (scan "Jan 45") = [⟨2045, 1, 12⟩] := by decide

/-- C2 amended: the normalizer handles every parse failure by omission (it is
a total filterMap of the per-mention parse, so no error is reported and no
exception escapes); a mention with no year whose day number is at most 31
but invalid for its month in the default year (day 0, or beyond the month's
length) is dropped; and the scenario text "Due February 30" scans to the one
mention "February 30", which the normalizer drops for every current date,
yielding the empty sequence.  (Day numbers above 31 are instead reinterpreted
as two-digit years, which is the correction the counterexample forces.) -/
theorem c2_amended_drop_policy :
    (∀ today ms, normalizeDates today ms = ms.filterMap (parseDate today)) ∧
    (∀ today m d, d ≤ 31 → (d = 0 ∨ daysInMonth today.year m < d) →
      resolveMention today ⟨m, d, none⟩ = none) ∧
    (scan "Due February 30" = ["February 30"] ∧
      ∀ today, normalizeDates today ["February 30"] = []) := by
  refine ⟨normalizeDates_eq_filterMap, ?_, by decide, ?_⟩
  · intro today m d hd31 hbad
    rw [resolveMention_noYear_small today m d hd31]
    unfold mkDate
    rw [if_neg]
    rintro ⟨-, -, h1, h2⟩
    rcases hbad with rfl | hlt
    · omega
    · omega
  · intro today
    have hp : parseDate today "February 30" = none := by
      show mkDate today.year 2 30 = none
      unfold mkDate
      rw [if_neg]
      rintro ⟨-, -, -, h⟩
      have := daysInMonth_feb_le today.year
      omega
    simp [normalizeDates, hp]

/-- C2 amended witness: the drop clause applied to the concrete invalid
mention February 30 at current date 2026-10-12. -/
theorem c2_amended_witness :
    resolveMention ⟨2026, 10, 12⟩ ⟨2, 30, none⟩ = none :=
  c2_amended_drop_policy.2.1 ⟨2026, 10, 12⟩ 2 30 (by decide) (Or.inr (by decide))

/-- C4: the normalizer emits at most one date per input mention, and it is
order-preserving: whenever mention a occurs before mention b in the input and
both parse successfully, a's date occurs before b's date in the output. -/
theorem c4_normalize_subsequence (today : CalendarDate) (ms : List String) :
    (normalizeDates today ms).length ≤ ms.length ∧
    (∀ l1 a l2 b l3, ms = l1 ++ a :: (l2 ++ b :: l3) →
      ∀ da db, parseDate today a = some da → parseDate today b = some db →
        ∃ o1 o2 o3, normalizeDates today ms = o1 ++ da :: (o2 ++ db :: o3)) := by
  constructor
  · rw [normalizeDates_eq_filterMap]
    exact List.length_filterMap_le _ _
  · rintro l1 a l2 b l3 rfl da db ha hb
    refine ⟨l1.filterMap (parseDate today), l2.filterMap (parseDate today),
      l3.filterMap (parseDate today), ?_⟩
    rw [normalizeDates_eq_filterMap]
    simp [List.filterMap_append, List.filterMap_cons, ha, hb]

/-- C4 witness: on the mentions ["Jan 15", "nope", "Mar. 3, 2025"] at current
date 2026-10-12 the output has at most three entries and January 15 precedes
March 3 in it. -/
theorem c4_witness :
    (normalizeDates ⟨2026, 10, 12⟩ ["Jan 15", "nope", "Mar. 3, 2025"]).length ≤ 3 ∧
    ∃ o1 o2 o3, normalizeDates ⟨2026, 10, 12⟩ ["Jan 15", "nope", "Mar. 3, 2025"] =
      o1 ++ (⟨2026, 1, 15⟩ : CalendarDate) :: (o2 ++ (⟨2025, 3, 3⟩ : CalendarDate) :: o3) := by
  have h := c4_normalize_subsequence ⟨2026, 10, 12⟩ ["Jan 15", "nope", "Mar. 3, 2025"]
  exact ⟨h.1, h.2 [] "Jan 15" ["nope"] "Mar. 3, 2025" [] rfl _ _ (by decide) (by decide)⟩

/-- C6: every extracted calendar date is lifted into exactly one schedule
row, with Task the constant "Syllabus Event", Day the weekday name of the
date, the start and end sentinels "N/A", and Description the formatted date
string, and the rows appear in the same order as the dates. -/
theorem c6_lift_rows (dates : List CalendarDate) :
    (syllabusRows dates).length = dates.length ∧
    ∀ (i : Nat) (d : CalendarDate), dates[i]? = some d →
      (syllabusRows dates)[i]? =
        some ⟨"Syllabus Event", weekdayName d, "N/A", "N/A", formatDate d⟩ := by
  induction dates with
  | nil =>
      refine ⟨rfl, ?_⟩
      intro i d h
      simp at h
  | cons x rest ih =>
      rw [syllabusRows_cons]
      refine ⟨by simpa using ih.1, ?_⟩
      intro i d h
      cases i with
      | zero =>
          simp at h
          subst h
          simp
      | succ n =>
          simp only [List.getElem?_cons_succ] at h ⊢
          exact ih.2 n d h

/-- C6 witness: the lift applied to the single date 2025-03-03, whose row has
Day "Monday" and Description "March 03, 2025". -/
theorem c6_witness :
    (syllabusRows [⟨2025, 3, 3⟩]).length = 1 ∧
    (syllabusRows [⟨2025, 3, 3⟩])[0]? =
      some ⟨"Syllabus Event", "Monday", "N/A", "N/A", "March 03, 2025"⟩ := by
  have h := c6_lift_rows [⟨2025, 3, 3⟩]
  exact ⟨h.1, Eq.trans (h.2 0 ⟨2025, 3, 3⟩ rfl) (by decide)⟩

/-- C8 counterexample: the header row the export writes for a concrete
one-entry schedule is "Task,Day,Start Time,End Time,Description", which is
not the claimed "Task,Day,StartTime,EndTime,Description": the start and end
column names contain a space. -/
theorem c8_counterexample :
    (saveScheduleLines [⟨"Gym", "Monday", "09:00", "10:00", ""⟩]).head? =
      some "Task,Day,Start Time,End Time,Description" ∧
    "Task,Day,Start Time,End Time,Description" ≠
      "Task,Day,StartTime,EndTime,Description" := by decide

/-- C8 amended: for every non-empty schedule the exported comma-separated
table begins with the header row of the five column labels Task, Day,
"Start Time", "End Time", Description (the start and end labels are written
with a space), followed by exactly one row per entry. -/
theorem c8_amended_header (rows : List ScheduleEntry) (h : rows ≠ []) :
    (saveScheduleLines rows).head? = some (csvRecord scheduleColumns) ∧
    csvRecord scheduleColumns = "Task,Day,Start Time,End Time,Description" ∧
    (saveScheduleLines rows).length = rows.length + 1 := by
  refine ⟨rfl, by decide, ?_⟩
  simp [saveScheduleLines]

/-- C8 amended witness: the header shape on a concrete one-entry schedule. -/
theorem c8_amended_witness :
    (saveScheduleLines [⟨"Gym", "Monday", "09:00", "10:00", ""⟩]).head? =
      some (csvRecord scheduleColumns) ∧
    csvRecord scheduleColumns = "Task,Day,Start Time,End Time,Description" ∧
    (saveScheduleLines [⟨"Gym", "Monday", "09:00", "10:00", ""⟩]).length = 1 + 1 :=
  c8_amended_header [⟨"Gym", "Monday", "09:00", "10:00", ""⟩] (by decide)

/-- C1 counterexample: the claim's reading of the recognition pattern puts no
word-boundary condition before the month token, so on the text "xJan 15" it
reports the matching substring "Jan 15"; the source's pattern starts with \b
and the scanner reports nothing there, because "Jan" is immediately preceded
by the letter "x". -/
theorem c1_counterexample :
    scan "xJan 15" = [] ∧ specScan "xJan 15" = ["Jan 15"] ∧
      ¬scan "xJan 15" = specScan "xJan 15" := by decide

/-- C1 amended: for every input text the scanner returns exactly the
leftmost-first, non-overlapping matches of the specification's recognition
pattern with the word-boundary requirement added — a month token from the
spec's token set (full names and three-letter abbreviations, chosen longest
at each position), not immediately preceded by a letter, digit or
underscore, optionally a period, whitespace, a one- or two-digit day number,
and optionally a comma, whitespace and a four-digit year; every match
(duplicates included) is reported, in order of its first character. -/
theorem c1_amended_scan_eq_spec (s : String) : scan s = specScanBounded s := by
  unfold scan specScanBounded scanChars
  rw [specScanAux_true_eq]
